import Mathlib

/-!
# Scripted input playback engine of `Joystick.c`

A shallow embedding of the two entry points of `src/Joystick.c` that carry state:

* `ISR(USART1_RX_vect)`, the serial receive handler, embedded as `onByte`;
* `GetNextReport`, the producer of the next controller report, embedded as
  `GetNextReport`.

The global variables of the C file become the fields of `State`, and each entry point
is a function on `State`.

Conventions of the embedding.

* A C `char` is a Lean `Char`. The code only compares characters for equality and
  copies them, it does no arithmetic on them.
* `int` variables (`cmdIndex`, `cmdLen`, `count`, `echoes`) are `Int`; `/` and `%`
  are the truncating `Int.tdiv` and `Int.tmod` of C. Signed overflow is not modelled:
  the additions of the code are the mathematical ones.
* `uint8_t l` is a `Nat`, and `l++` wraps at 256.
* The two arrays `commands` and `b` have exactly `MAX_BUFFER` cells (`Buffer`).
  A read `commands[i]` with `i` outside `0 .. MAX_BUFFER - 1` does not read the array:
  it yields whatever byte the surrounding memory holds, which the embedding takes as a
  parameter `mem : Int → Char`. Every call also reports the list of indices at which
  it read `commands`, in order (`Outcome.reads`). The one such byte that the source
  determines, the low byte of `cmdIndex` declared right after the array, is fixed by
  `declared`.
* `Joystick.h` is not part of the sources. The constants it declares
  (`STICK_CENTER`, `HAT_*`, `SWITCH_*`) are the fields of the parameter `JoystickH`;
  the report type is modelled with the six fields the code assigns.
* The character echo `printf("%c", c)` of the receive handler and the `_delay_ms(85)`
  of the `H` code act on the serial line and on time only, and are left out.
-/

namespace Joystick

/-! ## Data model -/

/-- The capacity of both buffers: `#define MAX_BUFFER 32`. -/
def MAX_BUFFER : Nat := 32

/-- The replay credit given to every fresh frame: `#define ECHOES 2`. -/
def ECHOES : Int := 2

/-- The constants of `Joystick.h` used by `GetNextReport`. The header is not part of
the sources, so the values are parameters of the embedding. -/
structure JoystickH where
  STICK_CENTER : Nat
  HAT_TOP : Nat
  HAT_RIGHT : Nat
  HAT_BOTTOM : Nat
  HAT_LEFT : Nat
  HAT_CENTER : Nat
  SWITCH_RELEASE : Nat
  SWITCH_Y : Nat
  SWITCH_B : Nat
  SWITCH_A : Nat
  SWITCH_X : Nat
  SWITCH_L : Nat
  SWITCH_R : Nat
  SWITCH_ZL : Nat
  SWITCH_ZR : Nat
  SWITCH_SELECT : Nat
  SWITCH_START : Nat
  SWITCH_HOME : Nat
  SWITCH_CAPTURE : Nat
  deriving DecidableEq, Repr

/-- One concrete assignment of the header constants (the customary values of the
Pokken pad report: one bit per button, hat values 0 to 8, sticks centred at 128).
It serves to evaluate the definitions on concrete inputs. -/
def sampleH : JoystickH where
  STICK_CENTER := 128
  HAT_TOP := 0
  HAT_RIGHT := 2
  HAT_BOTTOM := 4
  HAT_LEFT := 6
  HAT_CENTER := 8
  SWITCH_RELEASE := 0
  SWITCH_Y := 1
  SWITCH_B := 2
  SWITCH_A := 4
  SWITCH_X := 8
  SWITCH_L := 16
  SWITCH_R := 32
  SWITCH_ZL := 64
  SWITCH_ZR := 128
  SWITCH_SELECT := 256
  SWITCH_START := 512
  SWITCH_HOME := 4096
  SWITCH_CAPTURE := 8192

/-- The input report `USB_JoystickReport_Input_t`, with the fields `GetNextReport`
writes. -/
structure Report where
  Button : Nat
  HAT : Nat
  LX : Nat
  LY : Nat
  RX : Nat
  RY : Nat
  deriving DecidableEq, Repr

/-- A buffer of exactly `MAX_BUFFER` characters: `char commands[MAX_BUFFER]`,
`char b[MAX_BUFFER]`. -/
abbrev Buffer := Mathlib.Vector Char MAX_BUFFER

/-- The NUL character that `memset(b, 0, sizeof(b))` writes and that zero-initialised
globals hold. -/
def NUL : Char := Char.ofNat 0

/-- A buffer of `MAX_BUFFER` NUL characters. -/
def zeroBuffer : Buffer := Mathlib.Vector.replicate MAX_BUFFER NUL

/-- The global variables of `Joystick.c`. -/
structure State where
  commands : Buffer
  cmdIndex : Int
  cmdLen : Int
  count : Int
  active : Bool
  holdDown : Bool
  optimize : Bool
  b : Buffer
  l : Nat
  echoes : Int
  last_report : Report
  deriving DecidableEq

/-- The state at power-up: every global is zero-initialised, as C requires for
objects of static storage duration (`last_report` has no initialiser). -/
def powerUp : State where
  commands := zeroBuffer
  cmdIndex := 0
  cmdLen := 0
  count := 0
  active := false
  holdDown := false
  optimize := false
  b := zeroBuffer
  l := 0
  echoes := 0
  last_report := ⟨0, 0, 0, 0, 0, 0⟩

/-! ## The receive handler -/

/-- The handler `ISR(USART1_RX_vect)` for the received character `c`. -/
def onByte (s : State) (c : Char) : State :=
  if c = '\r' then
    { s with
      commands := s.b
      cmdIndex := 0
      count := -1
      active := true
      cmdLen := (s.l : Int)
      holdDown := false
      l := 0
      b := zeroBuffer }
  else if c = '!' then
    { s with optimize := true }
  else if c = '?' then
    { s with optimize := false }
  else if h : c ≠ '\n' ∧ s.l < MAX_BUFFER then
    { s with b := s.b.set ⟨s.l, h.2⟩ c, l := (s.l + 1) % 256 }
  else
    s

/-- The receive handler run on a sequence of characters, first character first. -/
def feed (s : State) (w : List Char) : State :=
  w.foldl onByte s

/-! ## The report producer -/

/-- The report as `GetNextReport` sets it up before anything else: cleared by `memset`,
the four stick axes at `STICK_CENTER`, the hat at `HAT_CENTER`, and
`Button |= SWITCH_RELEASE`. -/
def neutral (h : JoystickH) : Report where
  Button := 0 ||| h.SWITCH_RELEASE
  HAT := h.HAT_CENTER
  LX := h.STICK_CENTER
  LY := h.STICK_CENTER
  RX := h.STICK_CENTER
  RY := h.STICK_CENTER

/-- The statement `ReportData->Button |= m`. -/
def Report.press (r : Report) (m : Nat) : Report :=
  { r with Button := r.Button ||| m }

/-- The statement `ReportData->HAT = v`. -/
def Report.hat (r : Report) (v : Nat) : Report :=
  { r with HAT := v }

/-- What one call of `GetNextReport` does: the state it leaves, the report it hands
back in `*ReportData`, and the indices at which it read `commands`, in order. -/
structure Outcome where
  state : State
  report : Report
  reads : List Int

/-- The read `commands[i]`. Inside the array it is the cell `i`; outside, the byte
that `mem` gives for that index. -/
def readCommands (mem : Int → Char) (cmds : Buffer) (i : Int) : Char :=
  if h : 0 ≤ i ∧ i < (MAX_BUFFER : Int) then
    cmds.get ⟨i.toNat, by have := h.1; have := h.2; omega⟩
  else
    mem i

/-- The test `#define optimizable (optimize && cmdIndex + 1 < cmdLen)`. -/
def optimizable (s : State) : Bool :=
  s.optimize && decide (s.cmdIndex + 1 < s.cmdLen)

/-- The label `fin:` of `GetNextReport`: save the report for the echo and reload the
echo credit. -/
def fin (s : State) (r : Report) (reads : List Int) : Outcome where
  state := { s with last_report := r, echoes := ECHOES }
  report := r
  reads := reads

/-- The inner `switch (commands[cmdIndex + 1])` of the codes `<` and `>`, entered with
the hat already set in `r`. -/
def mergeButton (h : JoystickH) (mem : Int → Char) (s : State) (r : Report) : Outcome :=
  let reads := [s.cmdIndex, s.cmdIndex + 1]
  match readCommands mem s.commands (s.cmdIndex + 1) with
  | 'A' =>
    fin { s with cmdIndex := s.cmdIndex + 1, count := s.count + 2 } (r.press h.SWITCH_A) reads
  | 'B' =>
    fin { s with cmdIndex := s.cmdIndex + 1, count := s.count + 2 } (r.press h.SWITCH_B) reads
  | _ => fin s r reads

/-- The test `if (commands[cmdIndex + 1] == 'D')` of the codes `A` and `B`, entered
with the button already set in `r`. -/
def mergeUp (h : JoystickH) (mem : Int → Char) (s : State) (r : Report) : Outcome :=
  let reads := [s.cmdIndex, s.cmdIndex + 1]
  if readCommands mem s.commands (s.cmdIndex + 1) = 'D' then
    fin { s with cmdIndex := s.cmdIndex + 1, count := s.count + 2 } (r.hat h.HAT_TOP) reads
  else
    fin s r reads

/-- The statement `switch (commands[cmdIndex])` of `GetNextReport` and the fall
through to `fin:`, entered with the neutral report. -/
def dispatch (h : JoystickH) (mem : Int → Char) (s : State) : Outcome :=
  let r := neutral h
  match readCommands mem s.commands s.cmdIndex with
  | 'H' => fin s (r.press h.SWITCH_R) [s.cmdIndex]
  | '<' =>
    if !optimizable s then fin s (r.hat h.HAT_LEFT) [s.cmdIndex]
    else mergeButton h mem s (r.hat h.HAT_LEFT)
  | '>' =>
    if !optimizable s then fin s (r.hat h.HAT_RIGHT) [s.cmdIndex]
    else mergeButton h mem s (r.hat h.HAT_RIGHT)
  | 'D' => fin s (r.hat h.HAT_TOP) [s.cmdIndex]
  | 'S' => fin { s with holdDown := true } (r.hat h.HAT_BOTTOM) [s.cmdIndex]
  | 'A' =>
    if !optimizable s then fin s (r.press h.SWITCH_A) [s.cmdIndex]
    else mergeUp h mem s (r.press h.SWITCH_A)
  | 'B' =>
    if !optimizable s then fin s (r.press h.SWITCH_B) [s.cmdIndex]
    else mergeUp h mem s (r.press h.SWITCH_B)
  | 'd' => fin s (r.hat h.HAT_BOTTOM) [s.cmdIndex]
  | 'R' => fin s (r.press h.SWITCH_R) [s.cmdIndex]
  | 'L' => fin s (r.press h.SWITCH_L) [s.cmdIndex]
  | 'r' => fin s (r.press h.SWITCH_ZR) [s.cmdIndex]
  | 'l' => fin s (r.press h.SWITCH_ZL) [s.cmdIndex]
  | 'Y' => fin s (r.press h.SWITCH_Y) [s.cmdIndex]
  | 'X' => fin s (r.press h.SWITCH_X) [s.cmdIndex]
  | '+' => fin s (r.press h.SWITCH_START) [s.cmdIndex]
  | '-' => fin s (r.press h.SWITCH_SELECT) [s.cmdIndex]
  | 'c' => fin s (r.press h.SWITCH_CAPTURE) [s.cmdIndex]
  | 'h' => fin s (r.press h.SWITCH_HOME) [s.cmdIndex]
  | _ => fin s r [s.cmdIndex]

/-- The function `GetNextReport`. -/
def GetNextReport (h : JoystickH) (mem : Int → Char) (s : State) : Outcome :=
  if s.echoes > 0 then
    { state := { s with echoes := s.echoes - 1 }, report := s.last_report, reads := [] }
  else if !s.active then
    fin s (neutral h) []
  else if s.holdDown then
    fin s ((neutral h).hat h.HAT_BOTTOM) []
  else
    let s1 := { s with count := s.count + 1 }
    if s1.count.tmod 2 ≠ 0 then
      fin s1 (neutral h) []
    else
      let s2 := { s1 with cmdIndex := s1.count.tdiv 2 }
      if s2.cmdIndex > s2.cmdLen then
        fin { s2 with active := false } (neutral h) []
      else
        dispatch h mem s2

/-! ## Runs -/

/-- The two ways the engine is entered: the receive interrupt with a character, and a
call of `GetNextReport` (with the memory around `commands` as it is at that call). -/
inductive Event where
  | rx (c : Char)
  | poll (mem : Int → Char)

/-- The state after one event. -/
def step (h : JoystickH) (s : State) : Event → State
  | .rx c => onByte s c
  | .poll mem => (GetNextReport h mem s).state

/-- The state after a sequence of events, first event first. -/
def run (h : JoystickH) (s : State) (evs : List Event) : State :=
  evs.foldl (step h) s

/-- The outcomes of the `GetNextReport` calls of a sequence of events, in order. -/
def outcomes (h : JoystickH) (s : State) : List Event → List Outcome
  | [] => []
  | .rx c :: evs => outcomes h (onByte s c) evs
  | .poll mem :: evs => GetNextReport h mem s :: outcomes h (GetNextReport h mem s).state evs

/-- The reports returned by the `GetNextReport` calls of a sequence of events. -/
def reports (h : JoystickH) (s : State) (evs : List Event) : List Report :=
  (outcomes h s evs).map Outcome.report

/-- The states reachable from power-up by calls of the receive handler and of
`GetNextReport`, in any order. -/
inductive Reachable (h : JoystickH) : State → Prop where
  | init : Reachable h powerUp
  | rx (s : State) (c : Char) : Reachable h s → Reachable h (onByte s c)
  | poll (s : State) (mem : Int → Char) : Reachable h s →
      Reachable h (GetNextReport h mem s).state

/-- The state when the pending echo replays have been served: `GetNextReport` called
as many times as there is echo credit. -/
def drain (h : JoystickH) (mem : Int → Char) (s : State) : State :=
  Nat.iterate (fun t => (GetNextReport h mem t).state) s.echoes.toNat s

/-- The next fresh (non-replay) call of `GetNextReport`: the call made once the
pending echo replays have been served. -/
def freshCall (h : JoystickH) (mem : Int → Char) (s : State) : Outcome :=
  GetNextReport h mem (drain h mem s)

/-- The fresh call number `j`, counted from 0, when `GetNextReport` is called again and
again from the state `s`. -/
def nthFresh (h : JoystickH) (mem : Int → Char) : State → Nat → Outcome
  | s, 0 => freshCall h mem s
  | s, j + 1 => nthFresh h mem (freshCall h mem s).state j

/-! ## Auxiliary predicates -/

/-- The staging buffer holds exactly the characters `pre`, followed by NUL. -/
def Staged (s : State) (pre : List Char) : Prop :=
  s.b.toList = pre ++ List.replicate (MAX_BUFFER - pre.length) NUL ∧
  s.l = pre.length ∧ pre.length ≤ MAX_BUFFER

/-- The next call of `GetNextReport` from `s` is a press tick for the script index `i`:
no echo credit, a script in progress, no hold latch, and the incremented tick counter
is the even number `2 * i` with `i` not beyond `cmdLen`, so that the call reaches
`switch (commands[cmdIndex])` with `cmdIndex = i`. -/
def PressTick (s : State) (i : Int) : Prop :=
  s.echoes ≤ 0 ∧ s.active = true ∧ s.holdDown = false ∧ s.count + 1 = 2 * i ∧ i ≤ s.cmdLen

/-- The event is a call of `GetNextReport`. -/
def Event.isPoll : Event → Bool
  | .rx _ => false
  | .poll _ => true

/-- The event is the reception of a carriage return. -/
def Event.isPublish : Event → Bool
  | .rx c => decide (c = '\r')
  | .poll _ => false

/-- In the list of reports `L`, the reports number `3 * i + 1` and `3 * i + 2` equal
the report number `3 * i`, for every `i` (as far as the list goes). -/
def Tripled (L : List Report) : Prop :=
  ∀ i : Nat, ∀ r0 : Report, L[3 * i]? = some r0 →
    (∀ r, L[3 * i + 1]? = some r → r = r0) ∧ (∀ r, L[3 * i + 2]? = some r → r = r0)

/-- The report with the hat at `HAT_BOTTOM` and everything else neutral. -/
def downReport (h : JoystickH) : Report :=
  (neutral h).hat h.HAT_BOTTOM

/-- The hold latch is in force: a script is in progress with `holdDown` set, and what
the echo stage has saved, if it has credit, is the report with the hat down. -/
def Held (h : JoystickH) (s : State) : Prop :=
  s.active = true ∧ s.holdDown = true ∧ (s.echoes > 0 → s.last_report = downReport h)

/-- A script of length `N` is being played without optimisation and without the hold
latch, and the next fresh call is the call number `j` since the publish. -/
def Playing (s : State) (N j : Nat) : Prop :=
  s.active = true ∧ s.holdDown = false ∧ s.optimize = false ∧
  s.count = (j : Int) - 1 ∧ s.cmdLen = (N : Int)

/-- The playback of a script of length `N` is at its fresh call number `j`: still
playing up to call `2 * N + 2`, over afterwards. -/
def Scheduled (s : State) (N j : Nat) : Prop :=
  (j ≤ 2 * N + 2 ∧ Playing s N j) ∨ (2 * N + 2 < j ∧ s.active = false)

/-- A script of length `N` is in progress without optimisation at its fresh call
number `j`: either the hold latch is set, or the tick counter stands at `j - 1`. -/
def Running (s : State) (N j : Nat) : Prop :=
  s.active = true ∧ s.optimize = false ∧ s.cmdLen = (N : Int) ∧
  (s.holdDown = true ∨ (s.holdDown = false ∧ s.count = (j : Int) - 1))

/-- The bounds on the cursor that hold in every reachable state: `cmdLen` within the
capacity, the tick counter between -1 and `2 * cmdLen + 2` (and at most
`2 * cmdLen + 1` while a script is in progress), `cmdIndex` between 0 and
`cmdLen + 1`. -/
def Bounded (s : State) : Prop :=
  0 ≤ s.cmdLen ∧ s.cmdLen ≤ (MAX_BUFFER : Int) ∧ -1 ≤ s.count ∧ s.count ≤ 2 * s.cmdLen + 2 ∧
  0 ≤ s.cmdIndex ∧ s.cmdIndex ≤ s.cmdLen + 1 ∧ (s.active = true → s.count ≤ 2 * s.cmdLen + 1)

/-- Both buffers are NUL past their length: the staging buffer from the write cursor
`l` on, the active script from `cmdLen` on. -/
def Padded (s : State) : Prop :=
  (∀ i : Fin MAX_BUFFER, s.l ≤ i.val → s.b.get i = NUL) ∧
  (∀ i : Fin MAX_BUFFER, s.cmdLen ≤ (i.val : Int) → s.commands.get i = NUL)

/-- Nothing is left to play: the script is shorter than the buffer and, if it is still
in progress, the hold latch is not set and every cell that a later press tick can
dispatch (index `i` with `count < 2 * i` and `i ≤ cmdLen`) holds NUL. -/
def Winding (s : State) : Prop :=
  s.cmdLen < (MAX_BUFFER : Int) ∧
  (s.active = true → s.holdDown = false ∧ -1 ≤ s.count ∧
    ∀ i : Fin MAX_BUFFER, s.count < 2 * (i.val : Int) → (i.val : Int) ≤ s.cmdLen →
      s.commands.get i = NUL)

/-- The state with the optimisation flag cleared; two states have the same image when
they differ at most in that flag. -/
def eraseOptimize (s : State) : State :=
  { s with optimize := false }

/-! ## Statements of the specification, in its words -/

/-- The characters the receive handler never stores: the two optimisation toggles and
the newline. -/
def isControl (c : Char) : Bool :=
  c = '!' || c = '?' || c = '\n'

/-- The optimisation flag after the characters `w`, as the specification has it: set by
the last `!` or `?` of `w`, and the previous value when `w` has neither. -/
def toggled (previous : Bool) (w : List Char) : Bool :=
  match (w.filter (fun c => c = '!' || c = '?')).getLast? with
  | some c => decide (c = '!')
  | none => previous

/-- The report that encodes one script character, as the table of the specification
has it for the case without merge. -/
def codeReport (h : JoystickH) (c : Char) : Report :=
  if c = 'H' ∨ c = 'R' then (neutral h).press h.SWITCH_R
  else if c = '<' then (neutral h).hat h.HAT_LEFT
  else if c = '>' then (neutral h).hat h.HAT_RIGHT
  else if c = 'D' then (neutral h).hat h.HAT_TOP
  else if c = 'd' ∨ c = 'S' then (neutral h).hat h.HAT_BOTTOM
  else if c = 'A' then (neutral h).press h.SWITCH_A
  else if c = 'B' then (neutral h).press h.SWITCH_B
  else if c = 'L' then (neutral h).press h.SWITCH_L
  else if c = 'r' then (neutral h).press h.SWITCH_ZR
  else if c = 'l' then (neutral h).press h.SWITCH_ZL
  else if c = 'Y' then (neutral h).press h.SWITCH_Y
  else if c = 'X' then (neutral h).press h.SWITCH_X
  else if c = '+' then (neutral h).press h.SWITCH_START
  else if c = '-' then (neutral h).press h.SWITCH_SELECT
  else if c = 'c' then (neutral h).press h.SWITCH_CAPTURE
  else if c = 'h' then (neutral h).press h.SWITCH_HOME
  else neutral h

/-- The hat value of a direction code that can take part in a merge. -/
def padOf (h : JoystickH) (c : Char) : Nat :=
  if c = '<' then h.HAT_LEFT
  else if c = '>' then h.HAT_RIGHT
  else if c = 'D' then h.HAT_TOP
  else h.HAT_CENTER

/-- The button bit of a button code that can take part in a merge. -/
def buttonOf (h : JoystickH) (c : Char) : Nat :=
  if c = 'A' then h.SWITCH_A
  else if c = 'B' then h.SWITCH_B
  else 0

/-- The two codes `x`, `y` form a pair that the optimisation merges: a direction `<` or
`>` followed by a button `A` or `B`, or a button `A` or `B` followed by `D`. -/
def Mergeable (x y : Char) : Prop :=
  ((x = '<' ∨ x = '>') ∧ (y = 'A' ∨ y = 'B')) ∨ ((x = 'A' ∨ x = 'B') ∧ y = 'D')

/-- No two neighbouring characters of the active script form a pair that the
optimisation merges: for all cells `i`, `i + 1` with `i + 1 < cmdLen`. -/
def NoPair (s : State) : Prop :=
  ∀ i j : Fin MAX_BUFFER, j.val = i.val + 1 → (j.val : Int) < s.cmdLen →
    ¬ Mergeable (s.commands.get i) (s.commands.get j)

/-- The single report of a merged pair `x`, `y`: the neutral report with both the hat
value of the direction code and the button of the button code. -/
def mergedReport (h : JoystickH) (x y : Char) : Report :=
  if x = '<' ∨ x = '>' then
    { neutral h with HAT := padOf h x, Button := (neutral h).Button ||| buttonOf h y }
  else
    { neutral h with HAT := padOf h y, Button := (neutral h).Button ||| buttonOf h x }

/-- The report of the fresh call number `j` when the script in `cmds`, of length `N`,
is played without merge and without hold: neutral on the odd calls, the report of the
character at index `j / 2` on the even calls up to index `N`, neutral afterwards. -/
def playback (h : JoystickH) (mem : Int → Char) (cmds : Buffer) (N j : Nat) : Report :=
  if j % 2 = 1 then neutral h
  else if j / 2 ≤ N then codeReport h (readCommands mem cmds ((j / 2 : Nat) : Int))
  else neutral h

/-! ## The receive handler: publish, filtering, capacity -/

/-- C1. Whatever the state, the receive handler on a carriage return copies the staging
buffer into the active script, sets `cmdLen` to the previous write cursor, `count` to
-1, `cmdIndex` to 0, `active` to true, `holdDown` to false, `l` to 0, zeroes every
staging byte, and leaves the optimisation flag, the echo credit and the saved report
as they were. -/
theorem onByte_carriage_return (s : State) :
    (onByte s '\r').commands = s.b ∧
    (onByte s '\r').cmdLen = (s.l : Int) ∧
    (onByte s '\r').count = -1 ∧
    (onByte s '\r').cmdIndex = 0 ∧
    (onByte s '\r').active = true ∧
    (onByte s '\r').holdDown = false ∧
    (onByte s '\r').l = 0 ∧
    (∀ i : Fin MAX_BUFFER, (onByte s '\r').b.get i = NUL) ∧
    (onByte s '\r').optimize = s.optimize ∧
    (onByte s '\r').echoes = s.echoes ∧
    (onByte s '\r').last_report = s.last_report := by
  refine ⟨rfl, rfl, rfl, rfl, rfl, rfl, rfl, ?_, rfl, rfl, rfl⟩
  intro i
  simp [onByte, zeroBuffer, Mathlib.Vector.get_replicate]

theorem staged_empty (s : State) (hb : s.b = zeroBuffer) (hl : s.l = 0) : Staged s [] := by
  refine ⟨?_, by simpa using hl, by simp⟩
  rw [hb]; rfl

theorem onByte_staged (s : State) (pre : List Char) (c : Char) (hc : c ≠ '\r')
    (hs : Staged s pre) :
    Staged (onByte s c) (if isControl c then pre else (pre ++ [c]).take MAX_BUFFER) := by
  obtain ⟨hb, hl, hlen⟩ := hs
  unfold onByte
  rw [if_neg hc]
  by_cases h1 : c = '!'
  · subst h1; exact ⟨hb, hl, hlen⟩
  by_cases h2 : c = '?'
  · subst h2; exact ⟨hb, hl, hlen⟩
  rw [if_neg h1, if_neg h2]
  by_cases h3 : c = '\n'
  · subst h3
    simp only [ne_eq, not_true_eq_false, false_and, dite_false]
    exact ⟨hb, hl, hlen⟩
  have hctl : isControl c = false := by simp [isControl, h1, h2, h3]
  by_cases h4 : s.l < MAX_BUFFER
  · rw [dif_pos ⟨h3, h4⟩]
    have hlt : pre.length < MAX_BUFFER := by omega
    have htake : (pre ++ [c]).take MAX_BUFFER = pre ++ [c] := by
      apply List.take_of_length_le; simp; omega
    simp only [hctl, Bool.false_eq_true, if_false, htake]
    refine ⟨?_, ?_, ?_⟩
    · simp only [Mathlib.Vector.toList_set, hb, hl]
      rw [List.set_append_right _ _ (le_refl _)]
      simp only [Nat.sub_self, List.length_append, List.length_singleton, List.append_assoc]
      congr 1
      have : MAX_BUFFER - pre.length = (MAX_BUFFER - (pre.length + 1)) + 1 := by omega
      rw [this, List.replicate_succ]
      simp
    · simp only [List.length_append, List.length_singleton, hl]
      unfold MAX_BUFFER at hlt; omega
    · simp; omega
  · rw [dif_neg (by tauto)]
    have hfull : pre.length = MAX_BUFFER := by omega
    have htake : (pre ++ [c]).take MAX_BUFFER = pre := by
      rw [← hfull]; simp
    simp only [hctl, Bool.false_eq_true, if_false, htake]
    exact ⟨hb, hl, hlen⟩

theorem feed_staged (w : List Char) (hw : '\r' ∉ w) (s : State) (pre : List Char)
    (hs : Staged s pre) :
    Staged (feed s w) ((pre ++ w.filter (fun c => !isControl c)).take MAX_BUFFER) := by
  induction w generalizing s pre with
  | nil =>
    have : (pre ++ []).take MAX_BUFFER = pre := by
      simp only [List.append_nil]; exact List.take_of_length_le hs.2.2
    simp only [feed, List.foldl_nil, List.filter_nil, this]; exact hs
  | cons c w ih =>
    have hc : c ≠ '\r' := fun e => hw (by simp [e])
    have hw2 : '\r' ∉ w := fun e => hw (by simp [e])
    have h1 := onByte_staged s pre c hc hs
    have h2 := ih hw2 _ _ h1
    have hfeed : feed s (c :: w) = feed (onByte s c) w := rfl
    rw [hfeed]
    by_cases hctl : isControl c = true
    · simp only [hctl, if_true] at h2
      simpa [List.filter_cons, hctl] using h2
    · simp only [hctl, if_false] at h2
      have e : (List.take MAX_BUFFER (pre ++ [c]) ++ w.filter (fun c => !isControl c)).take MAX_BUFFER
          = (pre ++ (c :: w).filter (fun c => !isControl c)).take MAX_BUFFER := by
        simp only [List.filter_cons, hctl, Bool.not_false, if_true, Bool.false_eq_true, if_false]
        by_cases hl : (pre ++ [c]).length ≤ MAX_BUFFER
        · rw [List.take_of_length_le hl]; simp
        · have hfull : pre.length = MAX_BUFFER := by
            have := hs.2.2; simp at hl; omega
          rw [List.take_append_of_le_length (by simp [hfull]), List.take_append_of_le_length (by simp [hfull]),
            List.take_append_of_le_length (by simp [hfull])]
          simp [hfull]
      rw [← e]; exact h2

theorem toggled_cons (p : Bool) (c : Char) (w : List Char) :
    toggled p (c :: w) =
      toggled (if c = '!' then true else if c = '?' then false else p) w := by
  unfold toggled
  by_cases h1 : c = '!'
  · subst h1
    cases hf : w.filter (fun c => c = '!' || c = '?') with
    | nil => simp [List.filter_cons, hf]
    | cons a t =>
      simp only [List.filter_cons, hf, List.getLast?_cons_cons, decide_True, Bool.true_or,
        Bool.or_true, if_true, List.getLast?_eq_getLast _ (List.cons_ne_nil a t)]
  by_cases h2 : c = '?'
  · subst h2
    cases hf : w.filter (fun c => c = '!' || c = '?') with
    | nil => simp [List.filter_cons, hf]
    | cons a t =>
      simp only [List.filter_cons, hf, List.getLast?_cons_cons, decide_True, Bool.true_or,
        Bool.or_true, if_true, List.getLast?_eq_getLast _ (List.cons_ne_nil a t)]
  simp [List.filter_cons, h1, h2]

theorem onByte_optimize (s : State) (c : Char) (hc : c ≠ '\r') :
    (onByte s c).optimize = if c = '!' then true else if c = '?' then false else s.optimize := by
  unfold onByte
  rw [if_neg hc]
  by_cases h1 : c = '!'
  · simp [h1]
  by_cases h2 : c = '?'
  · simp [h2]
  rw [if_neg h1, if_neg h2, if_neg h1, if_neg h2]
  split <;> rfl

theorem feed_optimize (w : List Char) (hw : '\r' ∉ w) (s : State) :
    (feed s w).optimize = toggled s.optimize w := by
  induction w generalizing s with
  | nil => simp [feed, toggled]
  | cons c w ih =>
    have hc : c ≠ '\r' := fun e => hw (by simp [e])
    have hw2 : '\r' ∉ w := fun e => hw (by simp [e])
    have hfeed : feed s (c :: w) = feed (onByte s c) w := rfl
    rw [hfeed, ih hw2, toggled_cons, onByte_optimize s c hc]

/-- C2. Let `w` be a sequence of characters without carriage return, fed one by one to
the receive handler from a state whose staging buffer is empty (all NUL, `l = 0`), and
let `w'` be `w` without its `!`, `?` and newline characters. The carriage return fed
next publishes a script of length `min 32 |w'|` whose characters are the first
`min 32 |w'|` characters of `w'`; the optimisation flag is then the one set by the
last `!` or `?` of `w` (true for `!`, false for `?`), and its previous value when `w`
has neither. -/
theorem feed_then_publish (s : State) (w : List Char)
    (hb : s.b = zeroBuffer) (hl : s.l = 0) (hw : '\r' ∉ w) :
    (onByte (feed s w) '\r').cmdLen
        = ((min MAX_BUFFER (w.filter (fun c => !isControl c)).length : Nat) : Int) ∧
    (onByte (feed s w) '\r').commands.toList.take
        (min MAX_BUFFER (w.filter (fun c => !isControl c)).length)
        = (w.filter (fun c => !isControl c)).take
            (min MAX_BUFFER (w.filter (fun c => !isControl c)).length) ∧
    (onByte (feed s w) '\r').optimize = toggled s.optimize w := by
  have hst := feed_staged w hw s [] (staged_empty s hb hl)
  simp only [List.nil_append] at hst
  obtain ⟨h1, h2, h3⟩ := hst
  have hopt := feed_optimize w hw s
  refine ⟨?_, ?_, ?_⟩
  · show (((feed s w).l : Nat) : Int) = _
    rw [h2]; simp [List.length_take]
  · show (feed s w).b.toList.take _ = _
    rw [h1]
    rw [List.take_append_of_le_length (by simp [List.length_take])]
    simp [List.take_take]
  · exact hopt

theorem feed_then_publish_witness :
    (powerUp.b = zeroBuffer ∧ powerUp.l = 0 ∧ '\r' ∉ ['<', '!', 'A', '\n', '?', 'd']) ∧
    (onByte (feed powerUp ['<', '!', 'A', '\n', '?', 'd']) '\r').cmdLen = 3 ∧
    (onByte (feed powerUp ['<', '!', 'A', '\n', '?', 'd']) '\r').commands.toList.take 3
      = ['<', 'A', 'd'] ∧
    (onByte (feed powerUp ['<', '!', 'A', '\n', '?', 'd']) '\r').optimize = false :=
  ⟨⟨rfl, rfl, by decide⟩,
   feed_then_publish powerUp ['<', '!', 'A', '\n', '?', 'd'] rfl rfl (by decide)⟩


/-! ## What `GetNextReport` leaves alone -/

theorem fin_frame (s : State) (r : Report) (rd : List Int) :
    (fin s r rd).state.commands = s.commands ∧ (fin s r rd).state.cmdLen = s.cmdLen ∧
    (fin s r rd).state.optimize = s.optimize ∧ (fin s r rd).state.b = s.b ∧
    (fin s r rd).state.l = s.l := ⟨rfl, rfl, rfl, rfl, rfl⟩

theorem mergeButton_frame (h : JoystickH) (mem : Int → Char) (s : State) (r : Report) :
    (mergeButton h mem s r).state.commands = s.commands ∧
    (mergeButton h mem s r).state.cmdLen = s.cmdLen ∧
    (mergeButton h mem s r).state.optimize = s.optimize ∧
    (mergeButton h mem s r).state.b = s.b ∧
    (mergeButton h mem s r).state.l = s.l := by
  unfold mergeButton
  split <;> exact ⟨rfl, rfl, rfl, rfl, rfl⟩

theorem mergeUp_frame (h : JoystickH) (mem : Int → Char) (s : State) (r : Report) :
    (mergeUp h mem s r).state.commands = s.commands ∧
    (mergeUp h mem s r).state.cmdLen = s.cmdLen ∧
    (mergeUp h mem s r).state.optimize = s.optimize ∧
    (mergeUp h mem s r).state.b = s.b ∧
    (mergeUp h mem s r).state.l = s.l := by
  unfold mergeUp
  split <;> exact ⟨rfl, rfl, rfl, rfl, rfl⟩

theorem dispatch_frame (h : JoystickH) (mem : Int → Char) (s : State) :
    (dispatch h mem s).state.commands = s.commands ∧
    (dispatch h mem s).state.cmdLen = s.cmdLen ∧
    (dispatch h mem s).state.optimize = s.optimize ∧
    (dispatch h mem s).state.b = s.b ∧
    (dispatch h mem s).state.l = s.l := by
  unfold dispatch
  split <;> first
    | exact ⟨rfl, rfl, rfl, rfl, rfl⟩
    | (split
       · exact ⟨rfl, rfl, rfl, rfl, rfl⟩
       · first | exact mergeButton_frame h mem s _ | exact mergeUp_frame h mem s _)

/-- The report producer writes neither buffer, nor `cmdLen`, `optimize` or `l`. -/
theorem GetNextReport_frame (h : JoystickH) (mem : Int → Char) (s : State) :
    (GetNextReport h mem s).state.commands = s.commands ∧
    (GetNextReport h mem s).state.cmdLen = s.cmdLen ∧
    (GetNextReport h mem s).state.optimize = s.optimize ∧
    (GetNextReport h mem s).state.b = s.b ∧
    (GetNextReport h mem s).state.l = s.l := by
  unfold GetNextReport
  split
  · exact ⟨rfl, rfl, rfl, rfl, rfl⟩
  split
  · exact ⟨rfl, rfl, rfl, rfl, rfl⟩
  split
  · exact ⟨rfl, rfl, rfl, rfl, rfl⟩
  simp only []
  split
  · exact ⟨rfl, rfl, rfl, rfl, rfl⟩
  split
  · exact ⟨rfl, rfl, rfl, rfl, rfl⟩
  · exact dispatch_frame h mem _

theorem onByte_capacity (s : State) (c : Char) (hl : s.l ≤ MAX_BUFFER)
    (hc : s.cmdLen ≤ (MAX_BUFFER : Int)) :
    (onByte s c).l ≤ MAX_BUFFER ∧ (onByte s c).cmdLen ≤ (MAX_BUFFER : Int) := by
  unfold onByte
  split
  · exact ⟨Nat.zero_le _, by simpa using hl⟩
  split
  · exact ⟨hl, hc⟩
  split
  · exact ⟨hl, hc⟩
  split
  · rename_i hlt
    refine ⟨?_, hc⟩
    have := hlt.2
    show (s.l + 1) % 256 ≤ MAX_BUFFER
    unfold MAX_BUFFER at *
    omega
  · exact ⟨hl, hc⟩

theorem onByte_full (s : State) (c : Char) (hl : s.l = MAX_BUFFER)
    (h1 : c ≠ '\r') (h2 : c ≠ '!') (h3 : c ≠ '?') : onByte s c = s := by
  unfold onByte
  rw [if_neg h1, if_neg h2, if_neg h3, dif_neg]
  rintro ⟨_, hlt⟩
  omega

/-- C3. In every state reachable from power-up by calls of the receive handler and of
`GetNextReport` in any order, the write cursor `l` and the script length `cmdLen` are
at most `MAX_BUFFER = 32`. A call of the receive handler with `l = 32` and a character
other than the carriage return and the two toggles leaves the whole state unchanged. -/
theorem capacity_never_exceeded (h : JoystickH) :
    (∀ s : State, Reachable h s → s.l ≤ MAX_BUFFER ∧ s.cmdLen ≤ (MAX_BUFFER : Int)) ∧
    (∀ (s : State) (c : Char), s.l = MAX_BUFFER → c ≠ '\r' → c ≠ '!' → c ≠ '?' →
      onByte s c = s) := by
  refine ⟨?_, fun s c hl h1 h2 h3 => onByte_full s c hl h1 h2 h3⟩
  intro s hs
  induction hs with
  | init => exact ⟨by decide, by decide⟩
  | rx s c _ ih => exact onByte_capacity s c ih.1 ih.2
  | poll s mem _ ih =>
    obtain ⟨_, h2, _, _, h5⟩ := GetNextReport_frame h mem s
    rw [h2, h5]; exact ih

theorem capacity_never_exceeded_witness :
    Reachable sampleH (onByte powerUp 'A') ∧
    ((onByte powerUp 'A').l ≤ MAX_BUFFER ∧ (onByte powerUp 'A').cmdLen ≤ (MAX_BUFFER : Int)) ∧
    onByte { powerUp with l := 32 } 'B' = { powerUp with l := 32 } :=
  ⟨Reachable.rx _ 'A' Reachable.init,
   (capacity_never_exceeded sampleH).1 _ (Reachable.rx _ 'A' Reachable.init),
   (capacity_never_exceeded sampleH).2 _ 'B' rfl (by decide) (by decide) (by decide)⟩


/-! ## One call of `GetNextReport` -/

/-- With echo credit, the call replays the saved report and spends one credit. -/
theorem GetNextReport_echo (h : JoystickH) (mem : Int → Char) (s : State)
    (he : s.echoes > 0) :
    GetNextReport h mem s =
      { state := { s with echoes := s.echoes - 1 }, report := s.last_report, reads := [] } := by
  unfold GetNextReport
  rw [if_pos he]

/-- A press tick for index `i` is the dispatch of `commands[i]`. -/
theorem GetNextReport_press (h : JoystickH) (mem : Int → Char) (s : State) (i : Int)
    (ht : PressTick s i) :
    GetNextReport h mem s = dispatch h mem { s with count := 2 * i, cmdIndex := i } := by
  obtain ⟨he, ha, hd, hc, hi⟩ := ht
  unfold GetNextReport
  rw [if_neg (by omega)]
  simp only [ha, hd, hc, Bool.not_true, Bool.false_eq_true, if_false]
  have h1 : (2 * i).tmod 2 = 0 := by simp [Int.tmod_eq_zero_of_dvd]
  have h2 : (2 * i).tdiv 2 = i := by simp
  simp only [h1, h2, ne_eq, not_true_eq_false, if_false, gt_iff_lt]
  rw [if_neg (by omega)]

/-- The dispatch of the character `c` when the optimisation is off. -/
theorem dispatch_plain (h : JoystickH) (mem : Int → Char) (s : State) (c : Char)
    (hopt : s.optimize = false) (hc : readCommands mem s.commands s.cmdIndex = c) :
    dispatch h mem s =
      fin { s with holdDown := s.holdDown || decide (c = 'S') } (codeReport h c) [s.cmdIndex] := by
  subst hc
  have hno : optimizable s = false := by simp [optimizable, hopt]
  unfold dispatch
  split <;> rename_i heq <;>
    first
      | (simp [heq, codeReport, hno, fin]; done)
      | simp_all [codeReport, fin]


/-- The receive handler touches neither the echo credit nor the saved report. -/
theorem onByte_echo (s : State) (c : Char) :
    (onByte s c).echoes = s.echoes ∧ (onByte s c).last_report = s.last_report := by
  unfold onByte
  split
  · exact ⟨rfl, rfl⟩
  split
  · exact ⟨rfl, rfl⟩
  split
  · exact ⟨rfl, rfl⟩
  split <;> exact ⟨rfl, rfl⟩

theorem fin_echo (s : State) (r : Report) (rd : List Int) :
    (fin s r rd).state.last_report = (fin s r rd).report ∧ (fin s r rd).state.echoes = ECHOES :=
  ⟨rfl, rfl⟩

theorem mergeButton_echo (h : JoystickH) (mem : Int → Char) (s : State) (r : Report) :
    (mergeButton h mem s r).state.last_report = (mergeButton h mem s r).report ∧
    (mergeButton h mem s r).state.echoes = ECHOES := by
  unfold mergeButton
  split <;> exact ⟨rfl, rfl⟩

theorem mergeUp_echo (h : JoystickH) (mem : Int → Char) (s : State) (r : Report) :
    (mergeUp h mem s r).state.last_report = (mergeUp h mem s r).report ∧
    (mergeUp h mem s r).state.echoes = ECHOES := by
  unfold mergeUp
  split <;> exact ⟨rfl, rfl⟩

theorem dispatch_echo (h : JoystickH) (mem : Int → Char) (s : State) :
    (dispatch h mem s).state.last_report = (dispatch h mem s).report ∧
    (dispatch h mem s).state.echoes = ECHOES := by
  unfold dispatch
  split <;> first
    | exact ⟨rfl, rfl⟩
    | (split
       · exact ⟨rfl, rfl⟩
       · first | exact mergeButton_echo h mem s _ | exact mergeUp_echo h mem s _)

/-- A call without echo credit goes through `fin:`. -/
theorem GetNextReport_fresh (h : JoystickH) (mem : Int → Char) (s : State)
    (he : s.echoes ≤ 0) :
    (GetNextReport h mem s).state.last_report = (GetNextReport h mem s).report ∧
    (GetNextReport h mem s).state.echoes = ECHOES := by
  unfold GetNextReport
  rw [if_neg (by omega)]
  split
  · exact ⟨rfl, rfl⟩
  split
  · exact ⟨rfl, rfl⟩
  simp only []
  split
  · exact ⟨rfl, rfl⟩
  split
  · exact ⟨rfl, rfl⟩
  · exact dispatch_echo h mem _

/-! ## The code table without merge -/

/-- A press tick with the optimisation off: its report and its state. -/
theorem GetNextReport_press_plain (h : JoystickH) (mem : Int → Char) (s : State) (i : Int) (c : Char)
    (ht : PressTick s i) (hopt : s.optimize = false)
    (hc : readCommands mem s.commands i = c) :
    (GetNextReport h mem s).report = codeReport h c ∧
    (GetNextReport h mem s).state =
      { s with
        count := s.count + 1
        cmdIndex := i
        holdDown := decide (c = 'S')
        last_report := codeReport h c
        echoes := ECHOES } := by
  rw [GetNextReport_press h mem s i ht,
    dispatch_plain h mem { s with count := 2 * i, cmdIndex := i } c hopt hc]
  obtain ⟨_, _, hd, hcount, _⟩ := ht
  simp [fin, hd, hcount]

/-- C6. With the optimisation off, a press tick for the script character `c` returns
the report of the table of the specification for `c` (`codeReport`: the neutral report
with the one button of `c` pressed or the one hat value of `c` set, and the neutral
report itself for a character outside the table). The call advances the tick counter
(`count` by one, `cmdIndex` to the index of the tick), saves the report for the echo,
and changes nothing else of the state, except that the code `S` sets `holdDown`. -/
theorem press_tick_report (h : JoystickH) (mem : Int → Char) (s : State) (i : Int) (c : Char)
    (ht : PressTick s i) (hopt : s.optimize = false)
    (hc : readCommands mem s.commands i = c) :
    (GetNextReport h mem s).report = codeReport h c ∧
    (GetNextReport h mem s).state =
      { s with
        count := s.count + 1
        cmdIndex := i
        holdDown := decide (c = 'S')
        last_report := codeReport h c
        echoes := ECHOES } :=
  GetNextReport_press_plain h mem s i c ht hopt hc

theorem press_tick_report_witness :
    (PressTick (onByte (feed powerUp ['r', 'S']) '\r') 0 ∧
      (onByte (feed powerUp ['r', 'S']) '\r').optimize = false ∧
      readCommands (fun _ => NUL) (onByte (feed powerUp ['r', 'S']) '\r').commands 0 = 'r') ∧
    (GetNextReport sampleH (fun _ => NUL) (onByte (feed powerUp ['r', 'S']) '\r')).report
      = ⟨128, 8, 128, 128, 128, 128⟩ ∧
    (GetNextReport sampleH (fun _ => NUL) (onByte (feed powerUp ['r', 'S']) '\r')).state
      = { onByte (feed powerUp ['r', 'S']) '\r' with
          count := 0
          cmdIndex := 0
          holdDown := false
          last_report := ⟨128, 8, 128, 128, 128, 128⟩
          echoes := 2 } :=
  ⟨⟨⟨by decide, rfl, rfl, by decide, by decide⟩, rfl, rfl⟩,
   press_tick_report sampleH (fun _ => NUL) (onByte (feed powerUp ['r', 'S']) '\r') 0 'r'
     ⟨by decide, rfl, rfl, by decide, by decide⟩ rfl rfl⟩

/-! ## The echo stage -/

theorem reports_rx (h : JoystickH) (s : State) (c : Char) (evs : List Event) :
    reports h s (Event.rx c :: evs) = reports h (onByte s c) evs := rfl

theorem reports_poll (h : JoystickH) (s : State) (mem : Int → Char) (evs : List Event) :
    reports h s (Event.poll mem :: evs) =
      (GetNextReport h mem s).report :: reports h (GetNextReport h mem s).state evs := rfl

/-- As long as the calls do not outnumber the echo credit, every report is the saved
one, whatever the receive handler does in between. -/
theorem reports_while_credit (h : JoystickH) (evs : List Event) (s : State)
    (hn : ((evs.countP Event.isPoll : Nat) : Int) ≤ s.echoes) :
    ∀ r ∈ reports h s evs, r = s.last_report := by
  induction evs generalizing s with
  | nil => intro r hr; simp [reports, outcomes] at hr
  | cons e evs ih =>
    cases e with
    | rx c =>
      rw [reports_rx]
      obtain ⟨h1, h2⟩ := onByte_echo s c
      rw [← h2]
      apply ih
      rw [h1]
      simpa [List.countP_cons, Event.isPoll] using hn
    | poll mem =>
      have hc : ((evs.countP Event.isPoll : Nat) : Int) + 1 ≤ s.echoes := by
        simpa [List.countP_cons, Event.isPoll] using hn
      have hpos : s.echoes > 0 := by omega
      rw [reports_poll, GetNextReport_echo h mem s hpos]
      intro r hr
      rcases List.mem_cons.1 hr with hr | hr
      · exact hr
      · exact ih { s with echoes := s.echoes - 1 } (by show _ ≤ s.echoes - 1; omega) r hr

/-- C8. With echo credit, `GetNextReport` returns the saved report, takes one from
`echoes` and changes nothing else; so the calls made while the credit lasts all return
that same report, whatever the receive handler does in between. -/
theorem echo_replay (h : JoystickH) (mem : Int → Char) (s : State) (he : s.echoes > 0) :
    (GetNextReport h mem s).report = s.last_report ∧
    (GetNextReport h mem s).state = { s with echoes := s.echoes - 1 } ∧
    (GetNextReport h mem s).reads = [] ∧
    ∀ evs : List Event, ((evs.countP Event.isPoll : Nat) : Int) ≤ s.echoes →
      ∀ r ∈ reports h s evs, r = s.last_report := by
  rw [GetNextReport_echo h mem s he]
  exact ⟨rfl, rfl, rfl, fun evs hn => reports_while_credit h evs s hn⟩

theorem echo_replay_witness :
    ({ powerUp with echoes := 2, last_report := ⟨4, 6, 128, 128, 128, 128⟩ } : State).echoes > 0 ∧
    (GetNextReport sampleH (fun _ => NUL)
        { powerUp with echoes := 2, last_report := ⟨4, 6, 128, 128, 128, 128⟩ }).report
      = ⟨4, 6, 128, 128, 128, 128⟩ ∧
    (GetNextReport sampleH (fun _ => NUL)
        { powerUp with echoes := 2, last_report := ⟨4, 6, 128, 128, 128, 128⟩ }).state
      = { powerUp with echoes := 1, last_report := ⟨4, 6, 128, 128, 128, 128⟩ } :=
  ⟨by decide,
   (echo_replay sampleH (fun _ => NUL)
      { powerUp with echoes := 2, last_report := ⟨4, 6, 128, 128, 128, 128⟩ } (by decide)).1,
   (echo_replay sampleH (fun _ => NUL)
      { powerUp with echoes := 2, last_report := ⟨4, 6, 128, 128, 128, 128⟩ } (by decide)).2.1⟩


theorem tripled_shift (r : Report) (L : List Report) (hL : Tripled L) :
    Tripled (r :: r :: r :: L) := by
  intro i r0 h0
  cases i with
  | zero =>
    simp at h0
    subst h0
    constructor <;> intro x hx <;> simp at hx <;> exact hx.symm
  | succ j =>
    have e0 : 3 * (j + 1) = 3 * j + 3 := by ring
    have e1 : 3 * (j + 1) + 1 = (3 * j + 1) + 3 := by ring
    have e2 : 3 * (j + 1) + 2 = (3 * j + 2) + 3 := by ring
    rw [e0] at h0
    rw [e1, e2]
    simp only [List.getElem?_cons_succ] at h0 ⊢
    exact hL j r0 h0

theorem run_rx (h : JoystickH) (s : State) (c : Char) (evs : List Event) :
    run h s (Event.rx c :: evs) = run h (onByte s c) evs := rfl

theorem run_poll (h : JoystickH) (s : State) (mem : Int → Char) (evs : List Event) :
    run h s (Event.poll mem :: evs) = run h (GetNextReport h mem s).state evs := rfl

/-- The reports of a run come in threes: according to the credit left at the start,
the saved report completes the first group. -/
theorem reports_tripled (h : JoystickH) (evs : List Event) (s : State) :
    (s.echoes = 0 → Tripled (reports h s evs)) ∧
    (s.echoes = 2 → Tripled (s.last_report :: reports h s evs)) ∧
    (s.echoes = 1 → Tripled (s.last_report :: s.last_report :: reports h s evs)) := by
  induction evs generalizing s with
  | nil =>
    refine ⟨fun _ => ?_, fun _ => ?_, fun _ => ?_⟩ <;> intro i r0 h0
    · simp [reports, outcomes] at h0
    · cases i with
      | zero => simp [reports, outcomes]
      | succ j =>
        have e0 : 3 * (j + 1) = (3 * j + 2) + 1 := by ring
        rw [e0] at h0; simp [reports, outcomes] at h0
    · cases i with
      | zero => simp [reports, outcomes] at h0 ⊢; exact h0
      | succ j =>
        have e0 : 3 * (j + 1) = (3 * j + 1) + 1 + 1 := by ring
        rw [e0] at h0; simp [reports, outcomes] at h0
  | cons e evs ih =>
    cases e with
    | rx c =>
      rw [reports_rx]
      obtain ⟨h1, h2⟩ := onByte_echo s c
      have := ih (onByte s c)
      rw [h1, h2] at this
      exact this
    | poll mem =>
      rw [reports_poll]
      refine ⟨fun h0 => ?_, fun h2 => ?_, fun h1 => ?_⟩
      · obtain ⟨e1, e2⟩ := GetNextReport_fresh h mem s (by omega)
        have := (ih (GetNextReport h mem s).state).2.1 e2
        rw [e1] at this
        exact this
      · rw [GetNextReport_echo h mem s (by omega)]
        exact (ih { s with echoes := s.echoes - 1 }).2.2 (by show s.echoes - 1 = 1; omega)
      · rw [GetNextReport_echo h mem s (by omega)]
        exact tripled_shift _ _
          ((ih { s with echoes := s.echoes - 1 }).1 (by show s.echoes - 1 = 0; omega))

/-- Along a run the echo credit stays between 0 and `ECHOES`. -/
theorem run_echoes (h : JoystickH) (evs : List Event) (s : State)
    (hs : 0 ≤ s.echoes ∧ s.echoes ≤ ECHOES) :
    0 ≤ (run h s evs).echoes ∧ (run h s evs).echoes ≤ ECHOES := by
  induction evs generalizing s with
  | nil => exact hs
  | cons e evs ih =>
    cases e with
    | rx c =>
      rw [run_rx]; apply ih; rw [(onByte_echo s c).1]; exact hs
    | poll mem =>
      rw [run_poll]; apply ih
      by_cases he : s.echoes > 0
      · rw [GetNextReport_echo h mem s he]
        show 0 ≤ s.echoes - 1 ∧ s.echoes - 1 ≤ ECHOES
        omega
      · rw [(GetNextReport_fresh h mem s (by omega)).2]; decide

/-- C9. A call of `GetNextReport` made with echo credit 0 ends with the returned report
saved in `last_report` and with `echoes = ECHOES = 2`. So, in a run that starts with
`echoes = 0`, whatever calls of the receive handler are interleaved, `echoes` stays
within 0 .. 2 and the reports of the calls number `3 * i + 1` and `3 * i + 2` equal
the report of the call number `3 * i`. -/
theorem fresh_frame_saved (h : JoystickH) (s : State) (he : s.echoes = 0) :
    (∀ mem : Int → Char,
      (GetNextReport h mem s).state.last_report = (GetNextReport h mem s).report ∧
      (GetNextReport h mem s).state.echoes = 2) ∧
    (∀ evs : List Event, 0 ≤ (run h s evs).echoes ∧ (run h s evs).echoes ≤ 2) ∧
    (∀ evs : List Event, Tripled (reports h s evs)) :=
  ⟨fun mem => GetNextReport_fresh h mem s (by omega),
   fun evs => run_echoes h evs s (by rw [he]; decide),
   fun evs => (reports_tripled h evs s).1 he⟩

theorem fresh_frame_saved_witness :
    powerUp.echoes = 0 ∧
    ((GetNextReport sampleH (fun _ => NUL) powerUp).state.last_report
        = (GetNextReport sampleH (fun _ => NUL) powerUp).report ∧
      (GetNextReport sampleH (fun _ => NUL) powerUp).state.echoes = 2) ∧
    Tripled (reports sampleH powerUp
      [Event.rx 'A', Event.rx '\r', Event.poll (fun _ => NUL), Event.poll (fun _ => NUL),
       Event.rx 'B', Event.poll (fun _ => NUL), Event.poll (fun _ => NUL)]) :=
  ⟨rfl, (fresh_frame_saved sampleH powerUp rfl).1 (fun _ => NUL),
   (fresh_frame_saved sampleH powerUp rfl).2.2 _⟩


/-! ## The hold latch -/

/-- A character other than the carriage return leaves the script, the cursor and the
echo stage as they are. -/
theorem onByte_cursor (s : State) (c : Char) (hc : c ≠ '\r') :
    (onByte s c).commands = s.commands ∧ (onByte s c).cmdLen = s.cmdLen ∧
    (onByte s c).count = s.count ∧ (onByte s c).cmdIndex = s.cmdIndex ∧
    (onByte s c).active = s.active ∧ (onByte s c).holdDown = s.holdDown ∧
    (onByte s c).echoes = s.echoes ∧ (onByte s c).last_report = s.last_report := by
  unfold onByte
  rw [if_neg hc]
  split
  · exact ⟨rfl, rfl, rfl, rfl, rfl, rfl, rfl, rfl⟩
  split
  · exact ⟨rfl, rfl, rfl, rfl, rfl, rfl, rfl, rfl⟩
  split <;> exact ⟨rfl, rfl, rfl, rfl, rfl, rfl, rfl, rfl⟩

/-- The dispatch of the code `S`. -/
theorem dispatch_S (h : JoystickH) (mem : Int → Char) (s : State)
    (hS : readCommands mem s.commands s.cmdIndex = 'S') :
    dispatch h mem s = fin { s with holdDown := true } (downReport h) [s.cmdIndex] := by
  unfold dispatch
  rw [hS]
  rfl

theorem onByte_held (h : JoystickH) (s : State) (c : Char) (hc : c ≠ '\r')
    (hs : Held h s) : Held h (onByte s c) := by
  obtain ⟨_, _, _, _, e5, e6, e7, e8⟩ := onByte_cursor s c hc
  unfold Held
  rw [e5, e6, e7, e8]
  exact hs

theorem GetNextReport_held (h : JoystickH) (mem : Int → Char) (s : State) (hs : Held h s) :
    (GetNextReport h mem s).report = downReport h ∧ Held h (GetNextReport h mem s).state := by
  obtain ⟨ha, hd, hl⟩ := hs
  by_cases he : s.echoes > 0
  · rw [GetNextReport_echo h mem s he]
    refine ⟨hl he, ha, hd, fun _ => hl he⟩
  · unfold GetNextReport
    rw [if_neg he]
    simp only [ha, hd, Bool.not_true, Bool.false_eq_true, if_false, if_true]
    exact ⟨rfl, ha, hd, fun _ => rfl⟩

/-- Once the latch is in force, every call returns the report with the hat down, until
a carriage return is received. -/
theorem reports_held (h : JoystickH) (evs : List Event) (s : State) (hs : Held h s)
    (hev : ∀ e ∈ evs, Event.isPublish e = false) :
    ∀ r ∈ reports h s evs, r = downReport h := by
  induction evs generalizing s with
  | nil => intro r hr; simp [reports, outcomes] at hr
  | cons e evs ih =>
    have hev2 : ∀ e ∈ evs, Event.isPublish e = false :=
      fun e he => hev e (List.mem_cons_of_mem _ he)
    cases e with
    | rx c =>
      have hc : c ≠ '\r' := by
        have := hev (Event.rx c) (List.mem_cons_self _ _)
        simpa [Event.isPublish] using this
      rw [reports_rx]
      exact ih _ (onByte_held h s c hc hs) hev2
    | poll mem =>
      rw [reports_poll]
      obtain ⟨h1, h2⟩ := GetNextReport_held h mem s hs
      intro r hr
      rcases List.mem_cons.1 hr with hr | hr
      · rw [hr, h1]
      · exact ih _ h2 hev2 r hr

/-- The press tick that dispatches `S` puts the latch in force. -/
theorem press_S_held (h : JoystickH) (mem : Int → Char) (s : State) (i : Int)
    (ht : PressTick s i) (hS : readCommands mem s.commands i = 'S') :
    (GetNextReport h mem s).report = downReport h ∧ Held h (GetNextReport h mem s).state := by
  rw [GetNextReport_press h mem s i ht, dispatch_S h mem _ hS]
  exact ⟨rfl, ht.2.1, rfl, fun _ => rfl⟩

/-- The script `S`, just published without echo credit, waits for its press tick. -/
theorem reports_armed (h : JoystickH) (evs : List Event) (s : State)
    (ht : PressTick s 0) (hS : s.commands.get ⟨0, by decide⟩ = 'S')
    (hev : ∀ e ∈ evs, Event.isPublish e = false) :
    ∀ r ∈ reports h s evs, r = downReport h := by
  induction evs generalizing s with
  | nil => intro r hr; simp [reports, outcomes] at hr
  | cons e evs ih =>
    have hev2 : ∀ e ∈ evs, Event.isPublish e = false :=
      fun e he => hev e (List.mem_cons_of_mem _ he)
    cases e with
    | rx c =>
      have hc : c ≠ '\r' := by
        have := hev (Event.rx c) (List.mem_cons_self _ _)
        simpa [Event.isPublish] using this
      rw [reports_rx]
      obtain ⟨e1, e2, e3, e4, e5, e6, e7, e8⟩ := onByte_cursor s c hc
      apply ih
      · unfold PressTick; rw [e2, e3, e5, e6, e7]; exact ht
      · rw [e1]; exact hS
      · exact hev2
    | poll mem =>
      rw [reports_poll]
      have hread : readCommands mem s.commands 0 = 'S' := by
        unfold readCommands
        rw [dif_pos ⟨le_refl _, by decide⟩]
        exact hS
      obtain ⟨h1, h2⟩ := press_S_held h mem s 0 ht hread
      intro r hr
      rcases List.mem_cons.1 hr with hr | hr
      · rw [hr, h1]
      · exact reports_held h evs _ h2 hev2 r hr

/-- C10. Once a press tick has dispatched the code `S`, that call and every later call
of `GetNextReport`, replay or fresh, returns the report with the hat at `HAT_BOTTOM`
and everything else neutral, as long as the receive handler gets no carriage return.
In particular this holds for every call made after the script `S` is published from an
empty staging buffer with echo credit 0. -/
theorem sticky_hold (h : JoystickH) :
    (∀ (mem : Int → Char) (s : State) (i : Int), PressTick s i →
      readCommands mem s.commands i = 'S' →
      (GetNextReport h mem s).report = downReport h ∧
      ∀ evs : List Event, (∀ e ∈ evs, Event.isPublish e = false) →
        ∀ r ∈ reports h (GetNextReport h mem s).state evs, r = downReport h) ∧
    (∀ (s : State) (evs : List Event), s.b = zeroBuffer → s.l = 0 → s.echoes = 0 →
      (∀ e ∈ evs, Event.isPublish e = false) →
      ∀ r ∈ reports h (onByte (feed s ['S']) '\r') evs, r = downReport h) := by
  constructor
  · intro mem s i ht hS
    obtain ⟨h1, h2⟩ := press_S_held h mem s i ht hS
    exact ⟨h1, fun evs hev => reports_held h evs _ h2 hev⟩
  · intro s evs hb hl he hev
    apply reports_armed h evs _ _ _ hev
    · refine ⟨?_, rfl, rfl, rfl, ?_⟩
      · show (onByte (feed s ['S']) '\r').echoes ≤ 0
        rw [(onByte_echo _ _).1]
        show (onByte s 'S').echoes ≤ 0
        rw [(onByte_echo _ _).1]; omega
      · show (0 : Int) ≤ ((feed s ['S']).l : Int)
        omega
    · show (feed s ['S']).b.get ⟨0, by decide⟩ = 'S'
      show (onByte s 'S').b.get ⟨0, by decide⟩ = 'S'
      unfold onByte
      rw [if_neg (by decide), if_neg (by decide), if_neg (by decide),
        dif_pos ⟨by decide, by rw [hl]; decide⟩]
      show (s.b.set ⟨s.l, _⟩ 'S').get ⟨0, by decide⟩ = 'S'
      have e : (⟨0, by decide⟩ : Fin MAX_BUFFER) = ⟨s.l, by rw [hl]; decide⟩ :=
        Fin.ext hl.symm
      rw [e, Mathlib.Vector.get_set_same]

theorem sticky_hold_witness :
    PressTick (onByte (feed powerUp ['S']) '\r') 0 ∧
    readCommands (fun _ => NUL) (onByte (feed powerUp ['S']) '\r').commands 0 = 'S' ∧
    (GetNextReport sampleH (fun _ => NUL) (onByte (feed powerUp ['S']) '\r')).report
      = ⟨0, 4, 128, 128, 128, 128⟩ :=
  ⟨⟨by decide, rfl, rfl, by decide, by decide⟩, rfl,
   ((sticky_hold sampleH).1 (fun _ => NUL) (onByte (feed powerUp ['S']) '\r') 0
      ⟨by decide, rfl, rfl, by decide, by decide⟩ rfl).1⟩


/-! ## Merged pairs -/

/-- The dispatch of a mergeable pair with the optimisation applicable. -/
theorem dispatch_merge (h : JoystickH) (mem : Int → Char) (s : State) (x y : Char)
    (hopt : optimizable s = true)
    (hx : readCommands mem s.commands s.cmdIndex = x)
    (hy : readCommands mem s.commands (s.cmdIndex + 1) = y)
    (hxy : Mergeable x y) :
    dispatch h mem s =
      fin { s with cmdIndex := s.cmdIndex + 1, count := s.count + 2 } (mergedReport h x y)
        [s.cmdIndex, s.cmdIndex + 1] := by
  unfold dispatch
  rw [hx]
  rcases hxy with ⟨hx1 | hx1, hy1 | hy1⟩ | ⟨hx1 | hx1, hy1⟩ <;> subst hx1 <;> subst hy1 <;>
    simp [hopt, mergeButton, mergeUp, hy, mergedReport, padOf, buttonOf, fin, Report.hat,
      Report.press]

/-! ## Fresh calls -/

theorem iterate_echo (h : JoystickH) (mem : Int → Char) (n : Nat) (s : State)
    (hn : (n : Int) ≤ s.echoes) :
    Nat.iterate (fun t => (GetNextReport h mem t).state) n s
      = { s with echoes := s.echoes - n } := by
  induction n generalizing s with
  | zero => simp
  | succ n ih =>
    rw [Function.iterate_succ_apply, GetNextReport_echo h mem s (by omega)]
    rw [ih _ (by show (n : Int) ≤ s.echoes - 1; omega)]
    show ({ s with echoes := s.echoes - 1 - (n : Int) } : State) = _
    congr 1
    push_cast; ring

/-- Serving the pending replays brings the echo credit to 0 and changes nothing else;
without credit there is nothing to serve. -/
theorem drain_eq (h : JoystickH) (mem : Int → Char) (s : State) :
    drain h mem s = { s with echoes := min s.echoes 0 } := by
  unfold drain
  by_cases he : 0 ≤ s.echoes
  · rw [iterate_echo h mem _ s (by rw [Int.toNat_of_nonneg he])]
    congr 1
    rw [Int.toNat_of_nonneg he]; omega
  · have e : s.echoes.toNat = 0 := by omega
    rw [e]
    show s = _
    cases s
    simp only [State.mk.injEq, true_and]
    simp at he ⊢
    omega

/-- A spacer tick: the incremented tick counter is odd. -/
theorem GetNextReport_spacer (h : JoystickH) (mem : Int → Char) (s : State)
    (he : s.echoes ≤ 0) (ha : s.active = true) (hd : s.holdDown = false)
    (hodd : (s.count + 1).tmod 2 ≠ 0) :
    GetNextReport h mem s = fin { s with count := s.count + 1 } (neutral h) [] := by
  unfold GetNextReport
  rw [if_neg (by omega)]
  simp only [ha, hd, Bool.not_true, Bool.false_eq_true, if_false]
  rw [if_pos hodd]

/-- The tick that finds `cmdIndex` beyond `cmdLen` ends the script. -/
theorem GetNextReport_complete (h : JoystickH) (mem : Int → Char) (s : State) (i : Int)
    (he : s.echoes ≤ 0) (ha : s.active = true) (hd : s.holdDown = false)
    (hc : s.count + 1 = 2 * i) (hi : s.cmdLen < i) :
    GetNextReport h mem s =
      fin { s with count := s.count + 1, cmdIndex := i, active := false } (neutral h) [] := by
  unfold GetNextReport
  rw [if_neg (by omega)]
  simp only [ha, hd, hc, Bool.not_true, Bool.false_eq_true, if_false]
  have h1 : (2 * i).tmod 2 = 0 := by simp [Int.tmod_eq_zero_of_dvd]
  have h2 : (2 * i).tdiv 2 = i := by simp
  simp only [h1, h2, ne_eq, not_true_eq_false, if_false, gt_iff_lt]
  rw [if_pos hi]

/-- With no script in progress the call returns the neutral report. -/
theorem GetNextReport_idle (h : JoystickH) (mem : Int → Char) (s : State)
    (he : s.echoes ≤ 0) (ha : s.active = false) :
    GetNextReport h mem s = fin s (neutral h) [] := by
  unfold GetNextReport
  rw [if_neg (by omega)]
  simp [ha]

theorem mergeButton_trace (h : JoystickH) (mem : Int → Char) (s : State) (r : Report) :
    (mergeButton h mem s r).reads.head? = some s.cmdIndex ∧
    s.count ≤ (mergeButton h mem s r).state.count := by
  unfold mergeButton
  split
  · exact ⟨rfl, by show s.count ≤ s.count + 2; omega⟩
  · exact ⟨rfl, by show s.count ≤ s.count + 2; omega⟩
  · exact ⟨rfl, le_refl _⟩

theorem mergeUp_trace (h : JoystickH) (mem : Int → Char) (s : State) (r : Report) :
    (mergeUp h mem s r).reads.head? = some s.cmdIndex ∧
    s.count ≤ (mergeUp h mem s r).state.count := by
  unfold mergeUp
  split
  · exact ⟨rfl, by show s.count ≤ s.count + 2; omega⟩
  · exact ⟨rfl, le_refl _⟩

/-- The dispatch reads `commands[cmdIndex]` first and never lowers the tick counter. -/
theorem dispatch_trace (h : JoystickH) (mem : Int → Char) (s : State) :
    (dispatch h mem s).reads.head? = some s.cmdIndex ∧
    s.count ≤ (dispatch h mem s).state.count := by
  unfold dispatch
  split <;> first
    | exact ⟨rfl, le_refl _⟩
    | (split
       · exact ⟨rfl, le_refl _⟩
       · first | exact mergeButton_trace h mem s _ | exact mergeUp_trace h mem s _)

/-- A call never lowers the tick counter, and the character it dispatches, if any, is
the one at half the incremented tick counter, which is then even. -/
theorem GetNextReport_trace (h : JoystickH) (mem : Int → Char) (s : State) :
    s.count ≤ (GetNextReport h mem s).state.count ∧
    ∀ i, (GetNextReport h mem s).reads.head? = some i → s.count + 1 = 2 * i := by
  unfold GetNextReport
  split
  · exact ⟨le_refl _, fun i hi => by simp at hi⟩
  split
  · exact ⟨le_refl _, fun i hi => by simp [fin] at hi⟩
  split
  · exact ⟨le_refl _, fun i hi => by simp [fin] at hi⟩
  simp only []
  split
  · exact ⟨by show s.count ≤ s.count + 1; omega, fun i hi => by simp [fin] at hi⟩
  split
  · exact ⟨by show s.count ≤ s.count + 1; omega, fun i hi => by simp [fin] at hi⟩
  · rename_i hev _
    obtain ⟨h1, h2⟩ := dispatch_trace h mem
      { s with count := s.count + 1, cmdIndex := (s.count + 1).tdiv 2 }
    refine ⟨le_trans (by show s.count ≤ s.count + 1; omega) h2, fun i hi => ?_⟩
    rw [h1] at hi
    have hi2 : (s.count + 1).tdiv 2 = i := by simpa using hi
    have hev2 : (s.count + 1).tmod 2 = 0 := by simpa using hev
    have := Int.tmod_add_tdiv (s.count + 1) 2
    omega


theorem outcomes_rx (h : JoystickH) (s : State) (c : Char) (evs : List Event) :
    outcomes h s (Event.rx c :: evs) = outcomes h (onByte s c) evs := rfl

theorem outcomes_poll (h : JoystickH) (s : State) (mem : Int → Char) (evs : List Event) :
    outcomes h s (Event.poll mem :: evs) =
      GetNextReport h mem s :: outcomes h (GetNextReport h mem s).state evs := rfl

/-- Once the tick counter has reached `m`, no later call dispatches a character at an
index `i` with `2 * i ≤ m`, until a carriage return is received. -/
theorem outcomes_past (h : JoystickH) (m : Int) (evs : List Event) (s : State)
    (hm : m ≤ s.count) (hev : ∀ e ∈ evs, Event.isPublish e = false) :
    ∀ o ∈ outcomes h s evs, ∀ i, o.reads.head? = some i → m + 1 ≤ 2 * i := by
  induction evs generalizing s with
  | nil => intro o ho; simp [outcomes] at ho
  | cons e evs ih =>
    have hev2 : ∀ e ∈ evs, Event.isPublish e = false :=
      fun e he => hev e (List.mem_cons_of_mem _ he)
    cases e with
    | rx c =>
      have hc : c ≠ '\r' := by
        have := hev (Event.rx c) (List.mem_cons_self _ _)
        simpa [Event.isPublish] using this
      rw [outcomes_rx]
      exact ih _ (by rw [(onByte_cursor s c hc).2.2.1]; exact hm) hev2
    | poll mem =>
      rw [outcomes_poll]
      obtain ⟨h1, h2⟩ := GetNextReport_trace h mem s
      intro o ho
      rcases List.mem_cons.1 ho with ho | ho
      · intro i hi
        rw [ho] at hi
        have := h2 i hi
        omega
      · exact ih _ (le_trans hm h1) hev2 o ho

/-- With credit left, the next fresh call is the call made with the credit at 0. -/
theorem freshCall_of_credit (h : JoystickH) (mem : Int → Char) (s : State)
    (he : 0 ≤ s.echoes) :
    freshCall h mem s = GetNextReport h mem { s with echoes := 0 } := by
  unfold freshCall
  rw [drain_eq, min_eq_right he]

/-- C7, amended. With the optimisation on, at the press tick for an index `k` with
`k + 1 < cmdLen` whose character `x` and next character `y` form a mergeable pair
(`<` or `>` then `A` or `B`; `A` or `B` then `D`), `GetNextReport` returns the one
report that carries both the hat value and the button of the pair, having read
`commands[k]` and `commands[k + 1]`. Afterwards no call dispatches the character at
index `k + 1` (until a carriage return is received), the next fresh call is a neutral
spacer that dispatches nothing, and the fresh call after it dispatches the character
at index `k + 2`. -/
theorem merged_pair (h : JoystickH) (mem : Int → Char) (s : State) (k : Int) (x y : Char)
    (ht : PressTick s k) (hopt : s.optimize = true) (hk : k + 1 < s.cmdLen)
    (hx : readCommands mem s.commands k = x) (hy : readCommands mem s.commands (k + 1) = y)
    (hxy : Mergeable x y) :
    (GetNextReport h mem s).report = mergedReport h x y ∧
    (GetNextReport h mem s).reads = [k, k + 1] ∧
    (∀ evs : List Event, (∀ e ∈ evs, Event.isPublish e = false) →
      ∀ o ∈ outcomes h (GetNextReport h mem s).state evs, o.reads.head? ≠ some (k + 1)) ∧
    (nthFresh h mem (GetNextReport h mem s).state 0).report = neutral h ∧
    (nthFresh h mem (GetNextReport h mem s).state 0).reads = [] ∧
    (nthFresh h mem (GetNextReport h mem s).state 1).reads.head? = some (k + 2) := by
  have hoz : optimizable { s with count := 2 * k, cmdIndex := k } = true := by
    simp [optimizable, hopt, hk]
  have hcall : GetNextReport h mem s =
      fin { s with count := 2 * k + 2, cmdIndex := k + 1 } (mergedReport h x y) [k, k + 1] := by
    rw [GetNextReport_press h mem s k ht,
      dispatch_merge h mem { s with count := 2 * k, cmdIndex := k } x y hoz hx hy hxy]
  obtain ⟨_, ha, hd, hc, hi⟩ := ht
  rw [hcall]
  refine ⟨rfl, rfl, ?_, ?_⟩
  · intro evs hev o ho hread
    have := outcomes_past h (2 * k + 2) evs _ (le_refl _) hev o ho (k + 1) hread
    omega
  · have hodd : (2 * k + 2 + 1 : Int).tmod 2 ≠ 0 := by
      have := Int.tmod_add_tdiv (2 * k + 2 + 1) 2
      omega
    have hsp : freshCall h mem
        (fin { s with count := 2 * k + 2, cmdIndex := k + 1 } (mergedReport h x y)
          [k, k + 1]).state
        = fin { s with count := 2 * k + 2 + 1, cmdIndex := k + 1,
                       last_report := mergedReport h x y, echoes := 0 } (neutral h) [] := by
      rw [freshCall_of_credit h mem _ (by show (0 : Int) ≤ ECHOES; decide)]
      exact GetNextReport_spacer h mem _ (le_refl (0 : Int)) ha hd hodd
    have hpt : PressTick
        { s with count := 2 * k + 2 + 1, cmdIndex := k + 1,
                 last_report := neutral h, echoes := 0 } (k + 2) :=
      ⟨le_refl (0 : Int), ha, hd, by show 2 * k + 2 + 1 + 1 = 2 * (k + 2); ring,
        by show k + 2 ≤ s.cmdLen; omega⟩
    have hnx : freshCall h mem
        (fin { s with count := 2 * k + 2 + 1, cmdIndex := k + 1,
                      last_report := mergedReport h x y, echoes := 0 } (neutral h) []).state
        = dispatch h mem { s with count := 2 * (k + 2), cmdIndex := k + 2,
                                  last_report := neutral h, echoes := 0 } := by
      rw [freshCall_of_credit h mem _ (by show (0 : Int) ≤ ECHOES; decide)]
      exact GetNextReport_press h mem _ (k + 2) hpt
    refine ⟨?_, ?_, ?_⟩
    · show (freshCall _ _ _).report = _
      rw [hsp]; rfl
    · show (freshCall _ _ _).reads = _
      rw [hsp]; rfl
    · show (freshCall h mem (freshCall _ _ _).state).reads.head? = _
      rw [hsp, hnx]
      exact (dispatch_trace h mem _).1


/-- Without credit, the value of `echoes` plays no part in the call. -/
theorem GetNextReport_nonpos (h : JoystickH) (mem : Int → Char) (s : State)
    (he : s.echoes ≤ 0) :
    GetNextReport h mem s = GetNextReport h mem { s with echoes := 0 } := by
  have h0 : ¬ (s.echoes > 0) := not_lt.2 he
  have h1 : ¬ (({ s with echoes := 0 } : State).echoes > 0) := by
    show ¬ ((0 : Int) > 0)
    decide
  unfold GetNextReport
  rw [if_neg h0, if_neg h1]
  rfl

/-- The next fresh call is the call made with the credit at 0. -/
theorem freshCall_eq (h : JoystickH) (mem : Int → Char) (s : State) :
    freshCall h mem s = GetNextReport h mem { s with echoes := 0 } := by
  by_cases he : 0 ≤ s.echoes
  · exact freshCall_of_credit h mem s he
  · unfold freshCall
    rw [drain_eq, min_eq_left (by omega)]
    exact GetNextReport_nonpos h mem s (by omega)

/-! ## Playback without merge -/

/-- One fresh call of a playback without merge and without the code `S`. -/
theorem scheduled_step (h : JoystickH) (mem : Int → Char) (s : State) (N j : Nat)
    (hs : Scheduled s N j)
    (hS : ∀ i : Nat, i ≤ N → readCommands mem s.commands (i : Int) ≠ 'S') :
    (freshCall h mem s).report = playback h mem s.commands N j ∧
    (freshCall h mem s).state.active = decide (j < 2 * N + 2) ∧
    (freshCall h mem s).state.commands = s.commands ∧
    Scheduled (freshCall h mem s).state N (j + 1) := by
  rcases hs with ⟨hj, ha, hd, ho, hc, hN⟩ | ⟨hj, ha⟩
  · rw [freshCall_eq h mem s]
    rcases Nat.even_or_odd' j with ⟨i, rfl | rfl⟩
    · -- an even call: press tick for index `i`, or the end of the script
      have hpb1 : (2 * i) % 2 ≠ 1 := by omega
      have hpb2 : (2 * i) / 2 = i := by omega
      by_cases hi : i ≤ N
      · have hpt : PressTick { s with echoes := 0 } (i : Int) :=
          ⟨le_refl (0 : Int), ha, hd, by show s.count + 1 = 2 * (i : Int); rw [hc]; push_cast; ring,
            by show (i : Int) ≤ s.cmdLen; rw [hN]; exact_mod_cast hi⟩
        obtain ⟨h1, h2⟩ := GetNextReport_press_plain h mem { s with echoes := 0 } (i : Int)
          (readCommands mem s.commands (i : Int)) hpt ho rfl
        have hnS : decide (readCommands mem s.commands (i : Int) = 'S') = false := by
          simpa using hS i hi
        rw [hnS] at h2
        refine ⟨?_, ?_, ?_, ?_⟩
        · rw [h1]; simp [playback, hpb2, hi]
        · rw [h2]; show s.active = _; rw [ha]; symm; simp; omega
        · rw [h2]
        · rw [h2]
          left
          refine ⟨by omega, ha, rfl, ho, ?_, hN⟩
          show s.count + 1 = ((2 * i + 1 : Nat) : Int) - 1
          rw [hc]; push_cast; ring
      · have hi2 : i = N + 1 := by omega
        rw [GetNextReport_complete h mem { s with echoes := 0 } (i : Int) (le_refl (0 : Int)) ha hd
          (by show s.count + 1 = 2 * (i : Int); rw [hc]; push_cast; ring)
          (by show s.cmdLen < (i : Int); rw [hN]; exact_mod_cast (by omega : N < i))]
        refine ⟨?_, ?_, rfl, ?_⟩
        · simp [playback, hpb2, hi, fin]
        · show false = _; symm; simp; omega
        · right
          exact ⟨by omega, rfl⟩
    · -- an odd call: spacer
      have hodd : (s.count + 1).tmod 2 ≠ 0 := by
        have := Int.tmod_add_tdiv (s.count + 1) 2
        rw [hc] at this ⊢
        push_cast at this ⊢
        omega
      rw [GetNextReport_spacer h mem { s with echoes := 0 } (le_refl (0 : Int)) ha hd hodd]
      refine ⟨?_, ?_, rfl, ?_⟩
      · have : (2 * i + 1) % 2 = 1 := by omega
        simp [playback, this, fin]
      · show s.active = _; rw [ha]; symm; simp; omega
      · left
        refine ⟨by omega, ha, hd, ho, ?_, hN⟩
        show s.count + 1 = ((2 * i + 1 + 1 : Nat) : Int) - 1
        rw [hc]; push_cast; ring
  · rw [freshCall_eq h mem s,
      GetNextReport_idle h mem { s with echoes := 0 } (le_refl (0 : Int)) ha]
    refine ⟨?_, ?_, rfl, ?_⟩
    · unfold playback
      split
      · rfl
      · rw [if_neg (by omega)]; rfl
    · show s.active = _; rw [ha]; symm; simp; omega
    · right
      exact ⟨by omega, ha⟩

/-- The fresh calls of a playback without merge and without the code `S`, from the
call number `j0` on. -/
theorem scheduled_run (h : JoystickH) (mem : Int → Char) (N : Nat) (j : Nat) (s : State)
    (j0 : Nat) (hs : Scheduled s N j0)
    (hS : ∀ i : Nat, i ≤ N → readCommands mem s.commands (i : Int) ≠ 'S') :
    (nthFresh h mem s j).report = playback h mem s.commands N (j0 + j) ∧
    (nthFresh h mem s j).state.active = decide (j0 + j < 2 * N + 2) := by
  induction j generalizing s j0 with
  | zero =>
    obtain ⟨h1, h2, _, _⟩ := scheduled_step h mem s N j0 hs hS
    exact ⟨h1, h2⟩
  | succ j ih =>
    obtain ⟨_, _, h3, h4⟩ := scheduled_step h mem s N j0 hs hS
    have := ih (freshCall h mem s).state (j0 + 1) h4 (by rw [h3]; exact hS)
    rw [h3] at this
    have e : j0 + 1 + j = j0 + (j + 1) := by ring
    rw [e] at this
    exact this


/-- The cells of a buffer that holds the characters `S` followed by NUL. -/
theorem readCommands_staged (mem : Int → Char) (cmds : Buffer) (S : List Char)
    (hc : cmds.toList = S ++ List.replicate (MAX_BUFFER - S.length) NUL)
    (hlen : S.length ≤ MAX_BUFFER) :
    (∀ (k : Nat) (hk : k < S.length), readCommands mem cmds (k : Int) = S.get ⟨k, hk⟩) ∧
    (S.length < MAX_BUFFER → readCommands mem cmds (S.length : Int) = NUL) ∧
    (S.length = MAX_BUFFER → readCommands mem cmds (S.length : Int) = mem 32) := by
  refine ⟨fun k hk => ?_, fun hlt => ?_, fun heq => ?_⟩
  · unfold readCommands
    rw [dif_pos ⟨by omega, by exact_mod_cast (by omega : k < MAX_BUFFER)⟩]
    rw [Mathlib.Vector.get_eq_get]
    simp only [List.get_eq_getElem, Fin.coe_cast, Int.toNat_ofNat]
    simp only [hc]
    rw [List.getElem_append_left hk]
  · unfold readCommands
    rw [dif_pos ⟨by omega, by exact_mod_cast hlt⟩]
    rw [Mathlib.Vector.get_eq_get]
    simp only [List.get_eq_getElem, Fin.coe_cast, Int.toNat_ofNat]
    simp only [hc]
    rw [List.getElem_append_right (le_refl _)]
    simp
  · unfold readCommands
    rw [dif_neg (by rw [heq]; simp), heq]
    rfl

/-- Characters that are neither toggles nor newline pass the filter of the handler. -/
theorem filter_plain (S : List Char) (hS : ∀ c ∈ S, isControl c = false) :
    S.filter (fun c => !isControl c) = S := by
  rw [List.filter_eq_self]
  intro c hc
  simp [hS c hc]

theorem toggled_plain (p : Bool) (S : List Char) (hS : ∀ c ∈ S, isControl c = false) :
    toggled p S = p := by
  induction S generalizing p with
  | nil => rfl
  | cons c S ih =>
    have hc := hS c (List.mem_cons_self _ _)
    have h1 : c ≠ '!' := by intro e; subst e; simp [isControl] at hc
    have h2 : c ≠ '?' := by intro e; subst e; simp [isControl] at hc
    rw [toggled_cons, if_neg h1, if_neg h2]
    exact ih p (fun c hc => hS c (List.mem_cons_of_mem _ hc))

/-- The state in which a script without control characters, received with the staging
buffer empty, is published. -/
theorem published_state (s : State) (S : List Char)
    (hb : s.b = zeroBuffer) (hl : s.l = 0)
    (hS : ∀ c ∈ S, c ≠ '\r' ∧ isControl c = false) (hlen : S.length ≤ MAX_BUFFER) :
    (onByte (feed s S) '\r').commands.toList
        = S ++ List.replicate (MAX_BUFFER - S.length) NUL ∧
    (onByte (feed s S) '\r').cmdLen = (S.length : Int) ∧
    (onByte (feed s S) '\r').optimize = s.optimize := by
  have hcr : '\r' ∉ S := fun hm => (hS _ hm).1 rfl
  have hctl : ∀ c ∈ S, isControl c = false := fun c hc => (hS c hc).2
  have hst := feed_staged S hcr s [] (staged_empty s hb hl)
  rw [List.nil_append, filter_plain S hctl, List.take_of_length_le hlen] at hst
  obtain ⟨h1, h2, _⟩ := hst
  refine ⟨h1, ?_, ?_⟩
  · show ((feed s S).l : Int) = _
    rw [h2]
  · show (feed s S).optimize = _
    rw [feed_optimize S hcr s, toggled_plain _ S hctl]

/-- The playback of a published script, optimisation off and no code `S` in it: the
even fresh calls `2 * k`, `k < N`, return the reports of the characters in order, the
odd fresh calls return the neutral report, and `active` is cleared by the fresh call
number `2 * N + 2`. For a script that fills the buffer, the call number `2 * N` reads
the byte after the array, and the statement needs that byte not to be `S`. -/
theorem script_playback (h : JoystickH) (mem : Int → Char) (s : State) (S : List Char)
    (hb : s.b = zeroBuffer) (hl : s.l = 0) (hopt : s.optimize = false)
    (hS : ∀ c ∈ S, c ≠ '\r' ∧ isControl c = false) (hnoS : 'S' ∉ S)
    (hlen : S.length ≤ MAX_BUFFER) (hmem : S.length = MAX_BUFFER → mem 32 ≠ 'S') :
    (∀ (k : Nat) (hk : k < S.length),
      (nthFresh h mem (onByte (feed s S) '\r') (2 * k)).report = codeReport h (S.get ⟨k, hk⟩)) ∧
    (∀ j : Nat, j % 2 = 1 →
      (nthFresh h mem (onByte (feed s S) '\r') j).report = neutral h) ∧
    (∀ j : Nat,
      (nthFresh h mem (onByte (feed s S) '\r') j).state.active = decide (j < 2 * S.length + 2)) := by
  obtain ⟨hc, hN, ho⟩ := published_state s S hb hl hS hlen
  obtain ⟨r1, r2, r3⟩ := readCommands_staged mem _ S hc hlen
  have hsch : Scheduled (onByte (feed s S) '\r') S.length 0 :=
    Or.inl ⟨by omega, rfl, rfl, by rw [ho, hopt], rfl, hN⟩
  have hread : ∀ i : Nat, i ≤ S.length →
      readCommands mem (onByte (feed s S) '\r').commands (i : Int) ≠ 'S' := by
    intro i hi
    rcases Nat.lt_or_eq_of_le hi with hlt | heq
    · rw [r1 i hlt]
      intro e
      exact hnoS (e ▸ List.get_mem S i hlt)
    · subst heq
      rcases Nat.lt_or_eq_of_le hlen with hlt | heq
      · rw [r2 hlt]; decide
      · rw [r3 heq]; exact hmem heq
  have hrun := fun j => scheduled_run h mem S.length j _ 0 hsch hread
  refine ⟨fun k hk => ?_, fun j hj => ?_, fun j => ?_⟩
  · rw [(hrun (2 * k)).1]
    have e1 : (0 + 2 * k) % 2 ≠ 1 := by omega
    have e2 : (0 + 2 * k) / 2 = k := by omega
    simp only [playback, e1, e2, if_false, if_pos (le_of_lt hk), r1 k hk]
  · rw [(hrun j).1]
    have e1 : (0 + j) % 2 = 1 := by omega
    simp only [playback, e1, if_true]
  · rw [(hrun j).2]
    simp

/-! ## How long a script stays active -/

/-- With the latch set and no credit, the call returns the hat-down report and leaves
the cursor alone. -/
theorem GetNextReport_hold (h : JoystickH) (mem : Int → Char) (s : State)
    (he : s.echoes ≤ 0) (ha : s.active = true) (hd : s.holdDown = true) :
    GetNextReport h mem s = fin s (downReport h) [] := by
  unfold GetNextReport
  rw [if_neg (by omega)]
  simp only [ha, hd, Bool.not_true, Bool.false_eq_true, if_false, if_true]
  rfl

/-- One fresh call of a script in progress, up to the call number `2 * N + 1`: the
script is still in progress afterwards. If the call is the press tick of a code `S`,
the latch is set. -/
theorem running_step (h : JoystickH) (mem : Int → Char) (s : State) (N j : Nat)
    (hs : Running s N j) (hj : j ≤ 2 * N + 1) :
    Running (freshCall h mem s).state N (j + 1) ∧
    (freshCall h mem s).state.commands = s.commands ∧
    (s.holdDown = true → (freshCall h mem s).state.holdDown = true) ∧
    (∀ i : Nat, j = 2 * i → readCommands mem s.commands (i : Int) = 'S' →
      (freshCall h mem s).state.holdDown = true) := by
  obtain ⟨ha, ho, hN, hh⟩ := hs
  rw [freshCall_eq h mem s]
  rcases hh with hd | ⟨hd, hc⟩
  · rw [GetNextReport_hold h mem { s with echoes := 0 } (le_refl (0 : Int)) ha hd]
    exact ⟨⟨ha, ho, hN, Or.inl hd⟩, rfl, fun _ => hd, fun _ _ _ => hd⟩
  · rcases Nat.even_or_odd' j with ⟨i, rfl | rfl⟩
    · have hi : i ≤ N := by omega
      have hpt : PressTick { s with echoes := 0 } (i : Int) :=
        ⟨le_refl (0 : Int), ha, hd, by show s.count + 1 = 2 * (i : Int); rw [hc]; push_cast; ring,
          by show (i : Int) ≤ s.cmdLen; rw [hN]; exact_mod_cast hi⟩
      obtain ⟨_, h2⟩ := GetNextReport_press_plain h mem { s with echoes := 0 } (i : Int)
        (readCommands mem s.commands (i : Int)) hpt ho rfl
      rw [h2]
      refine ⟨⟨ha, ho, hN, ?_⟩, rfl, ?_, ?_⟩
      rotate_left
      · intro hd2; rw [hd] at hd2; cases hd2
      · intro i2 hi2 hS
        have : i2 = i := by omega
        subst this
        show decide _ = true
        simpa using hS
      · by_cases hS : readCommands mem s.commands (i : Int) = 'S'
        · left; show decide _ = true; simpa using hS
        · right
          refine ⟨by show decide _ = false; simpa using hS, ?_⟩
          show s.count + 1 = ((2 * i + 1 : Nat) : Int) - 1
          rw [hc]; push_cast; ring
    · have hodd : (s.count + 1).tmod 2 ≠ 0 := by
        have := Int.tmod_add_tdiv (s.count + 1) 2
        rw [hc] at this ⊢
        push_cast at this ⊢
        omega
      rw [GetNextReport_spacer h mem { s with echoes := 0 } (le_refl (0 : Int)) ha hd hodd]
      refine ⟨⟨ha, ho, hN, Or.inr ⟨hd, ?_⟩⟩, rfl, ?_, ?_⟩
      · show s.count + 1 = ((2 * i + 1 + 1 : Nat) : Int) - 1
        rw [hc]; push_cast; ring
      · intro hd2; rw [hd] at hd2; cases hd2
      · intro i2 hi2; omega

/-- A script in progress stays active through the fresh calls up to number
`2 * N + 1`. -/
theorem running_run (h : JoystickH) (mem : Int → Char) (N : Nat) (j : Nat) (s : State)
    (j0 : Nat) (hs : Running s N j0) (hj : j0 + j ≤ 2 * N + 1) :
    (nthFresh h mem s j).state.active = true := by
  induction j generalizing s j0 with
  | zero => exact (running_step h mem s N j0 hs (by omega)).1.1
  | succ j ih =>
    exact ih (freshCall h mem s).state (j0 + 1)
      (running_step h mem s N j0 hs (by omega)).1 (by omega)

/-- With the latch set, a script stays active and latched at every fresh call. -/
theorem latched_run (h : JoystickH) (mem : Int → Char) (j : Nat) (s : State)
    (ha : s.active = true) (hd : s.holdDown = true) :
    (nthFresh h mem s j).state.active = true := by
  have hstep : ∀ t : State, t.active = true → t.holdDown = true →
      (freshCall h mem t).state.active = true ∧ (freshCall h mem t).state.holdDown = true := by
    intro t hta htd
    rw [freshCall_eq h mem t,
      GetNextReport_hold h mem { t with echoes := 0 } (le_refl (0 : Int)) hta htd]
    exact ⟨hta, htd⟩
  induction j generalizing s with
  | zero => exact (hstep s ha hd).1
  | succ j ih => exact ih _ (hstep s ha hd).1 (hstep s ha hd).2

/-- A script in progress whose character at index `i0 ≤ N` is `S` stays active at
every fresh call: the latch is set at the press tick of the first `S` at the latest. -/
theorem running_to_latch (h : JoystickH) (mem : Int → Char) (N i0 : Nat) (j : Nat)
    (s : State) (j0 : Nat) (hs : Running s N j0) (hi0 : i0 ≤ N)
    (hS : readCommands mem s.commands (i0 : Int) = 'S')
    (hj0 : s.holdDown = true ∨ j0 ≤ 2 * i0) :
    (nthFresh h mem s j).state.active = true := by
  induction j generalizing s j0 with
  | zero =>
    rcases hj0 with hd | hle
    · exact latched_run h mem 0 s hs.1 hd
    · exact (running_step h mem s N j0 hs (by omega)).1.1
  | succ j ih =>
    rcases hj0 with hd | hle
    · exact latched_run h mem (j + 1) s hs.1 hd
    · obtain ⟨h1, h2, _, h4⟩ := running_step h mem s N j0 hs (by omega)
      apply ih (freshCall h mem s).state (j0 + 1) h1 (by rw [h2]; exact hS)
      by_cases he : j0 = 2 * i0
      · exact Or.inl (h4 i0 he hS)
      · exact Or.inr (by omega)

/-- C5, amended. A script of length `N` published with the optimisation off stays active
through at least its `2 * N` ticks: `active` is still true after each of the fresh
calls number 0 to `2 * N - 1`. If the script contains the code `S`, `active` is true
after every fresh call (the hold latch stops the tick counter). If it does not,
`active` is false after some fresh call (for a script that fills the buffer, provided
the byte after the array is not `S`). -/
theorem active_through_script (h : JoystickH) (mem : Int → Char) (s : State) (S : List Char)
    (hb : s.b = zeroBuffer) (hl : s.l = 0) (hopt : s.optimize = false)
    (hS : ∀ c ∈ S, c ≠ '\r' ∧ isControl c = false) (hlen : S.length ≤ MAX_BUFFER) :
    (∀ j : Nat, j < 2 * S.length →
      (nthFresh h mem (onByte (feed s S) '\r') j).state.active = true) ∧
    ('S' ∈ S → ∀ j : Nat, (nthFresh h mem (onByte (feed s S) '\r') j).state.active = true) ∧
    ('S' ∉ S → (S.length = MAX_BUFFER → mem 32 ≠ 'S') →
      ∃ j : Nat, (nthFresh h mem (onByte (feed s S) '\r') j).state.active = false) := by
  obtain ⟨hc, hN, ho⟩ := published_state s S hb hl hS hlen
  have hrun : Running (onByte (feed s S) '\r') S.length 0 :=
    ⟨rfl, by rw [ho, hopt], hN, Or.inr ⟨rfl, rfl⟩⟩
  refine ⟨fun j hj => ?_, fun hmem j => ?_, fun hno hmem => ?_⟩
  · exact running_run h mem S.length j _ 0 hrun (by omega)
  · obtain ⟨n, hn⟩ := List.mem_iff_get.1 hmem
    have hread := (readCommands_staged mem _ S hc hlen).1 n.1 n.2
    rw [hn] at hread
    exact running_to_latch h mem S.length n.1 j _ 0 hrun (le_of_lt n.2) hread
      (Or.inr (Nat.zero_le _))
  · refine ⟨2 * S.length + 2, ?_⟩
    rw [(script_playback h mem s S hb hl hopt hS hno hlen hmem).2.2 (2 * S.length + 2)]
    simp

theorem active_through_script_witness :
    (powerUp.b = zeroBuffer ∧ powerUp.l = 0 ∧ powerUp.optimize = false ∧
      (∀ c ∈ ['A', 'd'], c ≠ '\r' ∧ isControl c = false) ∧ ['A', 'd'].length ≤ MAX_BUFFER) ∧
    (nthFresh sampleH (fun _ => NUL) (onByte (feed powerUp ['A', 'd']) '\r') 3).state.active
      = true :=
  ⟨⟨rfl, rfl, rfl, by decide, by decide⟩,
   (active_through_script sampleH (fun _ => NUL) powerUp ['A', 'd'] rfl rfl rfl
      (by decide) (by decide)).1 3 (by decide)⟩

/-- C5 as stated fails. The script `S` (length 1) is still active after the fresh calls
number 2 and 9, that is after more than its two ticks: the hold latch keeps it active.
The script `A` (length 1) is still active after the fresh calls number 2 and 3, and
the fresh call number 4 is the one that clears `active`. -/
theorem active_beyond_two_ticks :
    (nthFresh sampleH (fun _ => NUL) (onByte (feed powerUp ['S']) '\r') 2).state.active = true ∧
    (nthFresh sampleH (fun _ => NUL) (onByte (feed powerUp ['S']) '\r') 9).state.active = true ∧
    (nthFresh sampleH (fun _ => NUL) (onByte (feed powerUp ['A']) '\r') 2).state.active = true ∧
    (nthFresh sampleH (fun _ => NUL) (onByte (feed powerUp ['A']) '\r') 3).state.active = true ∧
    (nthFresh sampleH (fun _ => NUL) (onByte (feed powerUp ['A']) '\r') 4).state.active = false := by
  decide

/-- C7 as stated fails on overlapping pairs. In the script `<AD`, published with the
optimisation on, the characters at indices 1 and 2 are `A` and `D`, a pair of the
claim; but index 1 is consumed by the merge of `<A` at the fresh call number 0, no
press tick takes place for index 1, and the fresh call number 2 dispatches the `D` at
index 2 on a tick of its own, returning the report with the hat up and no button. -/
theorem overlapping_pairs :
    (onByte (feed powerUp ['!', '<', 'A', 'D']) '\r').optimize = true ∧
    readCommands (fun _ => NUL) (onByte (feed powerUp ['!', '<', 'A', 'D']) '\r').commands 1
      = 'A' ∧
    readCommands (fun _ => NUL) (onByte (feed powerUp ['!', '<', 'A', 'D']) '\r').commands 2
      = 'D' ∧
    (nthFresh sampleH (fun _ => NUL)
        (onByte (feed powerUp ['!', '<', 'A', 'D']) '\r') 0).reads = [0, 1] ∧
    (nthFresh sampleH (fun _ => NUL)
        (onByte (feed powerUp ['!', '<', 'A', 'D']) '\r') 1).reads = [] ∧
    (nthFresh sampleH (fun _ => NUL)
        (onByte (feed powerUp ['!', '<', 'A', 'D']) '\r') 2).reads = [2] ∧
    (nthFresh sampleH (fun _ => NUL)
        (onByte (feed powerUp ['!', '<', 'A', 'D']) '\r') 2).report
      = (neutral sampleH).hat sampleH.HAT_TOP := by
  decide

theorem merged_pair_witness :
    (PressTick (onByte (feed powerUp ['!', '<', 'A']) '\r') 0 ∧
      (onByte (feed powerUp ['!', '<', 'A']) '\r').optimize = true ∧
      (0 : Int) + 1 < (onByte (feed powerUp ['!', '<', 'A']) '\r').cmdLen ∧
      Mergeable '<' 'A') ∧
    (GetNextReport sampleH (fun _ => NUL) (onByte (feed powerUp ['!', '<', 'A']) '\r')).report
      = ⟨4, 6, 128, 128, 128, 128⟩ :=
  ⟨⟨⟨by decide, rfl, rfl, by decide, by decide⟩, rfl, by decide, Or.inl ⟨Or.inl rfl, Or.inl rfl⟩⟩,
   (merged_pair sampleH (fun _ => NUL) (onByte (feed powerUp ['!', '<', 'A']) '\r') 0 '<' 'A'
      ⟨by decide, rfl, rfl, by decide, by decide⟩ rfl (by decide) rfl rfl
      (Or.inl ⟨Or.inl rfl, Or.inl rfl⟩)).1⟩


/-! ## Cancellation by a publish -/

/-- The carriage return branch reads only the staging buffer, the write cursor, the
optimisation flag and the echo stage. -/
theorem onByte_publish_congr (s t : State) (hb : s.b = t.b) (hl : s.l = t.l)
    (ho : s.optimize = t.optimize) (he : s.echoes = t.echoes)
    (hr : s.last_report = t.last_report) : onByte s '\r' = onByte t '\r' := by
  unfold onByte
  rw [if_pos rfl, if_pos rfl]
  simp only [hb, hl, ho, he, hr]

/-- C11. Two states that agree on the staging buffer, the write cursor `l`, the
optimisation flag, the echo credit and the saved report, and differ in any way in the
old script, `cmdLen`, `count`, `cmdIndex`, `active` and `holdDown`, are taken to the
same state by the carriage return; so all reports and states of any later sequence of
events are the same in the two runs. -/
theorem publish_cancels (h : JoystickH) (s t : State) (hb : s.b = t.b) (hl : s.l = t.l)
    (ho : s.optimize = t.optimize) (he : s.echoes = t.echoes)
    (hr : s.last_report = t.last_report) :
    onByte s '\r' = onByte t '\r' ∧
    ∀ evs : List Event,
      reports h (onByte s '\r') evs = reports h (onByte t '\r') evs ∧
      run h (onByte s '\r') evs = run h (onByte t '\r') evs := by
  have e := onByte_publish_congr s t hb hl ho he hr
  exact ⟨e, fun evs => by rw [e]; exact ⟨rfl, rfl⟩⟩

theorem publish_cancels_witness :
    (({ onByte powerUp 'A' with
          commands := Mathlib.Vector.replicate MAX_BUFFER 'S'
          cmdLen := 9, count := 7, cmdIndex := 3, active := true, holdDown := true } : State).b
        = (onByte powerUp 'A').b) ∧
    onByte { onByte powerUp 'A' with
          commands := Mathlib.Vector.replicate MAX_BUFFER 'S'
          cmdLen := 9, count := 7, cmdIndex := 3, active := true, holdDown := true } '\r'
      = onByte (onByte powerUp 'A') '\r' :=
  ⟨rfl,
   (publish_cancels sampleH
      { onByte powerUp 'A' with
          commands := Mathlib.Vector.replicate MAX_BUFFER 'S'
          cmdLen := 9, count := 7, cmdIndex := 3, active := true, holdDown := true }
      (onByte powerUp 'A') rfl rfl rfl rfl rfl).1⟩

/-! ## Bounds on the cursor -/

theorem mergeButton_cursor (h : JoystickH) (mem : Int → Char) (s : State) (r : Report) :
    (mergeButton h mem s r).state.active = s.active ∧
    (((mergeButton h mem s r).state.count = s.count ∧
        (mergeButton h mem s r).state.cmdIndex = s.cmdIndex) ∨
      ((mergeButton h mem s r).state.count = s.count + 2 ∧
        (mergeButton h mem s r).state.cmdIndex = s.cmdIndex + 1)) ∧
    (mergeButton h mem s r).reads = [s.cmdIndex, s.cmdIndex + 1] := by
  unfold mergeButton
  split
  · exact ⟨rfl, Or.inr ⟨rfl, rfl⟩, rfl⟩
  · exact ⟨rfl, Or.inr ⟨rfl, rfl⟩, rfl⟩
  · exact ⟨rfl, Or.inl ⟨rfl, rfl⟩, rfl⟩

theorem mergeUp_cursor (h : JoystickH) (mem : Int → Char) (s : State) (r : Report) :
    (mergeUp h mem s r).state.active = s.active ∧
    (((mergeUp h mem s r).state.count = s.count ∧
        (mergeUp h mem s r).state.cmdIndex = s.cmdIndex) ∨
      ((mergeUp h mem s r).state.count = s.count + 2 ∧
        (mergeUp h mem s r).state.cmdIndex = s.cmdIndex + 1)) ∧
    (mergeUp h mem s r).reads = [s.cmdIndex, s.cmdIndex + 1] := by
  unfold mergeUp
  split
  · exact ⟨rfl, Or.inr ⟨rfl, rfl⟩, rfl⟩
  · exact ⟨rfl, Or.inl ⟨rfl, rfl⟩, rfl⟩

/-- What the dispatch does to the cursor and which cells it reads: it keeps `active`;
either it reads `commands[cmdIndex]` alone or, the optimisation being applicable, also
`commands[cmdIndex + 1]`; and only in the second case may it advance `count` by 2 and
`cmdIndex` by 1. -/
theorem dispatch_cursor (h : JoystickH) (mem : Int → Char) (s : State) :
    (dispatch h mem s).state.active = s.active ∧
    (((dispatch h mem s).state.count = s.count ∧
        (dispatch h mem s).state.cmdIndex = s.cmdIndex) ∨
      (optimizable s = true ∧ (dispatch h mem s).state.count = s.count + 2 ∧
        (dispatch h mem s).state.cmdIndex = s.cmdIndex + 1)) ∧
    ((dispatch h mem s).reads = [s.cmdIndex] ∨
      (optimizable s = true ∧ (dispatch h mem s).reads = [s.cmdIndex, s.cmdIndex + 1])) := by
  unfold dispatch
  split <;> first
    | exact ⟨rfl, Or.inl ⟨rfl, rfl⟩, Or.inl rfl⟩
    | (split
       · exact ⟨rfl, Or.inl ⟨rfl, rfl⟩, Or.inl rfl⟩
       · rename_i hopt
         have ho : optimizable s = true := by simpa using hopt
         first
           | (obtain ⟨h1, h2, h3⟩ := mergeButton_cursor h mem s ((neutral h).hat h.HAT_LEFT)
              exact ⟨h1, h2.imp id (fun x => ⟨ho, x⟩), Or.inr ⟨ho, h3⟩⟩)
           | (obtain ⟨h1, h2, h3⟩ := mergeButton_cursor h mem s ((neutral h).hat h.HAT_RIGHT)
              exact ⟨h1, h2.imp id (fun x => ⟨ho, x⟩), Or.inr ⟨ho, h3⟩⟩)
           | (obtain ⟨h1, h2, h3⟩ := mergeUp_cursor h mem s ((neutral h).press h.SWITCH_A)
              exact ⟨h1, h2.imp id (fun x => ⟨ho, x⟩), Or.inr ⟨ho, h3⟩⟩)
           | (obtain ⟨h1, h2, h3⟩ := mergeUp_cursor h mem s ((neutral h).press h.SWITCH_B)
              exact ⟨h1, h2.imp id (fun x => ⟨ho, x⟩), Or.inr ⟨ho, h3⟩⟩))

/-- A non-negative integer is twice its truncated half plus a remainder 0 or 1. -/
theorem tmod_two (a : Int) (ha : 0 ≤ a) :
    a = a.tmod 2 + 2 * a.tdiv 2 ∧ (a.tmod 2 = 0 ∨ a.tmod 2 = 1) := by
  have h1 := Int.tmod_add_tdiv a 2
  have h2 := Int.tmod_nonneg 2 ha
  have h3 := Int.tmod_lt_of_pos a (by decide : (0 : Int) < 2)
  omega

/-- A call of `GetNextReport` keeps the bounds, and reads `commands` only at indices
between 0 and `cmdLen`. -/
theorem GetNextReport_bounded (h : JoystickH) (mem : Int → Char) (s : State)
    (hs : Bounded s) :
    Bounded (GetNextReport h mem s).state ∧
    ∀ i ∈ (GetNextReport h mem s).reads, 0 ≤ i ∧ i ≤ s.cmdLen := by
  obtain ⟨b1, b2, b3, b4, b5, b6, b7⟩ := hs
  unfold GetNextReport
  split
  · exact ⟨⟨b1, b2, b3, b4, b5, b6, b7⟩, fun i hi => by simp at hi⟩
  split
  · exact ⟨⟨b1, b2, b3, b4, b5, b6, b7⟩, fun i hi => by simp [fin] at hi⟩
  split
  · exact ⟨⟨b1, b2, b3, b4, b5, b6, b7⟩, fun i hi => by simp [fin] at hi⟩
  rename_i hact _
  have ha : s.active = true := by simpa using hact
  have hc := b7 ha
  obtain ⟨e1, e2⟩ := tmod_two (s.count + 1) (by omega)
  simp only []
  split
  · rename_i hodd
    refine ⟨⟨b1, b2, ?_, ?_, b5, b6, fun _ => ?_⟩, fun i hi => by simp [fin] at hi⟩
    · show -1 ≤ s.count + 1; omega
    · show s.count + 1 ≤ 2 * s.cmdLen + 2; omega
    · show s.count + 1 ≤ 2 * s.cmdLen + 1
      have : (s.count + 1).tmod 2 ≠ 0 := hodd
      omega
  rename_i hev
  have hev2 : (s.count + 1).tmod 2 = 0 := by simpa using hev
  split
  · rename_i hgt
    have hgt2 : s.cmdLen < (s.count + 1).tdiv 2 := hgt
    refine ⟨⟨b1, b2, ?_, ?_, ?_, ?_, fun hf => by cases hf⟩, fun i hi => by simp [fin] at hi⟩
    · show -1 ≤ s.count + 1; omega
    · show s.count + 1 ≤ 2 * s.cmdLen + 2; omega
    · show 0 ≤ (s.count + 1).tdiv 2; omega
    · show (s.count + 1).tdiv 2 ≤ s.cmdLen + 1; omega
  · rename_i hle
    have hle2 : ¬ s.cmdLen < (s.count + 1).tdiv 2 := hle
    obtain ⟨d1, d2, d3⟩ := dispatch_cursor h mem
      { s with count := s.count + 1, cmdIndex := (s.count + 1).tdiv 2 }
    obtain ⟨_, f2, _, _, _⟩ := dispatch_frame h mem
      { s with count := s.count + 1, cmdIndex := (s.count + 1).tdiv 2 }
    have hopt : optimizable { s with count := s.count + 1, cmdIndex := (s.count + 1).tdiv 2 } = true →
        (s.count + 1).tdiv 2 + 1 < s.cmdLen := by
      intro ho
      simp only [optimizable, Bool.and_eq_true, decide_eq_true_eq] at ho
      exact ho.2
    constructor
    · unfold Bounded
      rw [f2, d1]
      rcases d2 with ⟨c1, c2⟩ | ⟨ho, c1, c2⟩
      · rw [c1, c2]
        refine ⟨b1, b2, ?_, ?_, ?_, ?_, fun _ => ?_⟩
        · show -1 ≤ s.count + 1; omega
        · show s.count + 1 ≤ 2 * s.cmdLen + 2; omega
        · show 0 ≤ (s.count + 1).tdiv 2; omega
        · show (s.count + 1).tdiv 2 ≤ s.cmdLen + 1; omega
        · show s.count + 1 ≤ 2 * s.cmdLen + 1; omega
      · have := hopt ho
        rw [c1, c2]
        refine ⟨b1, b2, ?_, ?_, ?_, ?_, fun _ => ?_⟩
        · show -1 ≤ s.count + 1 + 2; omega
        · show s.count + 1 + 2 ≤ 2 * s.cmdLen + 2; omega
        · show 0 ≤ (s.count + 1).tdiv 2 + 1; omega
        · show (s.count + 1).tdiv 2 + 1 ≤ s.cmdLen + 1; omega
        · show s.count + 1 + 2 ≤ 2 * s.cmdLen + 1; omega
    · intro i hi
      rcases d3 with r1 | ⟨ho, r1⟩
      · rw [r1] at hi
        have : i = (s.count + 1).tdiv 2 := by simpa using hi
        omega
      · have := hopt ho
        rw [r1] at hi
        have : i = (s.count + 1).tdiv 2 ∨ i = (s.count + 1).tdiv 2 + 1 := by simpa using hi
        omega

theorem onByte_bounded (s : State) (c : Char) (hs : Bounded s) (hl : s.l ≤ MAX_BUFFER) :
    Bounded (onByte s c) := by
  by_cases hc : c = '\r'
  · subst hc
    unfold onByte
    rw [if_pos rfl]
    refine ⟨?_, ?_, ?_, ?_, ?_, ?_, fun _ => ?_⟩
    · show (0 : Int) ≤ (s.l : Int); omega
    · show (s.l : Int) ≤ (MAX_BUFFER : Int); exact_mod_cast hl
    · show (-1 : Int) ≤ -1; omega
    · show (-1 : Int) ≤ 2 * (s.l : Int) + 2; omega
    · show (0 : Int) ≤ 0; omega
    · show (0 : Int) ≤ (s.l : Int) + 1; omega
    · show (-1 : Int) ≤ 2 * (s.l : Int) + 1; omega
  · obtain ⟨_, e2, e3, e4, e5, _, _, _⟩ := onByte_cursor s c hc
    unfold Bounded
    rw [e2, e3, e4, e5]
    exact hs

/-- Every reachable state satisfies the bounds, with the write cursor within the
capacity. -/
theorem reachable_bounded (h : JoystickH) (s : State) (hs : Reachable h s) :
    Bounded s ∧ s.l ≤ MAX_BUFFER := by
  induction hs with
  | init => exact ⟨by unfold Bounded; decide, by decide⟩
  | rx s c _ ih =>
    exact ⟨onByte_bounded s c ih.1 ih.2,
      (onByte_capacity s c ih.2 ih.1.2.1).1⟩
  | poll s mem _ ih =>
    refine ⟨(GetNextReport_bounded h mem s ih.1).1, ?_⟩
    rw [(GetNextReport_frame h mem s).2.2.2.2]
    exact ih.2

/-- C20. In every state reachable from power-up by calls of the receive handler and of
`GetNextReport`, with or without merges, `-1 ≤ count ≤ 2 * cmdLen + 2 ≤ 66` and
`0 ≤ cmdIndex ≤ cmdLen + 1`. So the value `count + 1` whose remainder and half the next
call computes is not negative, and the additions `count += 1` and `count += 2` of
that call stay far below the largest 16-bit signed integer. -/
theorem cursor_bounds (h : JoystickH) (s : State) (hs : Reachable h s) :
    -1 ≤ s.count ∧ s.count ≤ 2 * s.cmdLen + 2 ∧ 2 * s.cmdLen + 2 ≤ 66 ∧
    0 ≤ s.cmdIndex ∧ s.cmdIndex ≤ s.cmdLen + 1 ∧
    0 ≤ s.count + 1 ∧ s.count + 3 < 2 ^ 15 := by
  obtain ⟨⟨b1, b2, b3, b4, b5, b6, _⟩, _⟩ := reachable_bounded h s hs
  have : (MAX_BUFFER : Int) = 32 := rfl
  refine ⟨b3, b4, by omega, b5, b6, by omega, ?_⟩
  have : (2 : Int) ^ 15 = 32768 := by norm_num
  omega


theorem cursor_bounds_witness :
    Reachable sampleH (GetNextReport sampleH (fun _ => NUL) (onByte (onByte powerUp 'A') '\r')).state ∧
    (-1 ≤ (GetNextReport sampleH (fun _ => NUL) (onByte (onByte powerUp 'A') '\r')).state.count ∧
      (GetNextReport sampleH (fun _ => NUL) (onByte (onByte powerUp 'A') '\r')).state.count
        ≤ 2 * (GetNextReport sampleH (fun _ => NUL) (onByte (onByte powerUp 'A') '\r')).state.cmdLen + 2) :=
  ⟨Reachable.poll _ _ (Reachable.rx _ _ (Reachable.rx _ _ Reachable.init)),
   (cursor_bounds sampleH _
      (Reachable.poll _ (fun _ => NUL) (Reachable.rx _ '\r' (Reachable.rx _ 'A' Reachable.init)))).1,
   (cursor_bounds sampleH _
      (Reachable.poll _ (fun _ => NUL) (Reachable.rx _ '\r' (Reachable.rx _ 'A' Reachable.init)))).2.1⟩

/-! ## Padding of the buffers -/

theorem onByte_padded (s : State) (c : Char) (hs : Padded s) : Padded (onByte s c) := by
  obtain ⟨p1, p2⟩ := hs
  unfold onByte
  split
  · refine ⟨fun i _ => ?_, fun i hi => ?_⟩
    · show zeroBuffer.get i = NUL
      simp [zeroBuffer, Mathlib.Vector.get_replicate]
    · have hi2 : (s.l : Int) ≤ (i.val : Int) := hi
      exact p1 i (by exact_mod_cast hi2)
  split
  · exact ⟨p1, p2⟩
  split
  · exact ⟨p1, p2⟩
  split
  · rename_i hlt
    have hl := hlt.2
    refine ⟨fun i hi => ?_, p2⟩
    have hi2 : (s.l + 1) % 256 ≤ i.val := hi
    have hl32 : s.l < 32 := hl
    have hne : (⟨s.l, hl⟩ : Fin MAX_BUFFER) ≠ i := by
      intro e
      have := congrArg Fin.val e
      simp at this
      omega
    show (s.b.set ⟨s.l, hl⟩ c).get i = NUL
    rw [Mathlib.Vector.get_set_of_ne hne]
    exact p1 i (by omega)
  · exact ⟨p1, p2⟩

/-- In every reachable state both buffers are NUL past their length. -/
theorem reachable_padded (h : JoystickH) (s : State) (hs : Reachable h s) : Padded s := by
  induction hs with
  | init =>
    refine ⟨fun i _ => ?_, fun i _ => ?_⟩ <;>
      simp [powerUp, zeroBuffer, Mathlib.Vector.get_replicate]
  | rx s c _ ih => exact onByte_padded s c ih
  | poll s mem _ ih =>
    obtain ⟨f1, f2, _, f4, f5⟩ := GetNextReport_frame h mem s
    unfold Padded
    rw [f1, f2, f4, f5]
    exact ih

/-- The dispatch of the NUL character: the neutral report, nothing else changed. -/
theorem dispatch_NUL (h : JoystickH) (mem : Int → Char) (s : State)
    (hz : readCommands mem s.commands s.cmdIndex = NUL) :
    dispatch h mem s = fin s (neutral h) [s.cmdIndex] := by
  unfold dispatch
  rw [hz]
  rfl

/-- C19. In every state reachable from power-up by calls of the receive handler and of
`GetNextReport`, the staging buffer is NUL from the write cursor `l` on and the active
script is NUL from `cmdLen` on (below the capacity 32). Hence, for a script of length
`cmdLen < 32`, the press tick at `cmdIndex = cmdLen` dispatches the NUL character
(whatever the memory around the array holds) and returns the neutral report, the
cursor advancing as on any tick: no character of an earlier, longer script is left
there to be played. -/
theorem buffers_padded (h : JoystickH) (s : State) (hs : Reachable h s) :
    (∀ i : Fin MAX_BUFFER, s.l ≤ i.val → s.b.get i = NUL) ∧
    (∀ i : Fin MAX_BUFFER, s.cmdLen ≤ (i.val : Int) → s.commands.get i = NUL) ∧
    (∀ mem : Int → Char, PressTick s s.cmdLen → s.cmdLen < (MAX_BUFFER : Int) →
      readCommands mem s.commands s.cmdLen = NUL ∧
      (GetNextReport h mem s).report = neutral h ∧
      (GetNextReport h mem s).reads = [s.cmdLen] ∧
      (GetNextReport h mem s).state =
        { s with count := s.count + 1, cmdIndex := s.cmdLen,
                 last_report := neutral h, echoes := ECHOES }) := by
  obtain ⟨p1, p2⟩ := reachable_padded h s hs
  obtain ⟨⟨b1, _⟩, _⟩ := reachable_bounded h s hs
  refine ⟨p1, p2, fun mem ht hlt => ?_⟩
  have hread : readCommands mem s.commands s.cmdLen = NUL := by
    unfold readCommands
    rw [dif_pos ⟨b1, hlt⟩]
    apply p2
    simp only
    rw [Int.toNat_of_nonneg b1]
  rw [GetNextReport_press h mem s s.cmdLen ht,
    dispatch_NUL h mem { s with count := 2 * s.cmdLen, cmdIndex := s.cmdLen } hread]
  refine ⟨hread, rfl, rfl, ?_⟩
  show ({ s with count := 2 * s.cmdLen, cmdIndex := s.cmdLen,
                 last_report := neutral h, echoes := ECHOES } : State) = _
  rw [← ht.2.2.2.1]

/-- The state after a sequence of events from a reachable state is reachable. -/
theorem reachable_run (h : JoystickH) (evs : List Event) (s : State) (hs : Reachable h s) :
    Reachable h (run h s evs) := by
  induction evs generalizing s with
  | nil => exact hs
  | cons e evs ih =>
    cases e with
    | rx c => rw [run_rx]; exact ih _ (Reachable.rx s c hs)
    | poll mem => rw [run_poll]; exact ih _ (Reachable.poll s mem hs)

theorem buffers_padded_witness :
    Reachable sampleH
      (run sampleH powerUp
        ([Event.rx 'A', Event.rx '\r'] ++ List.replicate 6 (Event.poll (fun _ => NUL)))) ∧
    (run sampleH powerUp
        ([Event.rx 'A', Event.rx '\r'] ++ List.replicate 6 (Event.poll (fun _ => NUL)))).commands.get
      ⟨1, by decide⟩ = NUL :=
  ⟨reachable_run sampleH _ powerUp Reachable.init,
   (buffers_padded sampleH _ (reachable_run sampleH _ powerUp Reachable.init)).2.1
     ⟨1, by decide⟩ (by decide)⟩

/-! ## The completion guard at work -/

/-- C14 at the script `A`. From power-up, the characters `A` and carriage return are
received and `GetNextReport` is called 7 times: the last call (the fresh call number 2)
sets `cmdIndex` to 1, equal to `cmdLen`, and the script is still marked active. After
13 calls (the last is the fresh call number 4) `cmdIndex` is 2, above `cmdLen = 1`.
Both states are reachable. -/
theorem cmdIndex_passes_cmdLen :
    Reachable sampleH
      (run sampleH powerUp
        ([Event.rx 'A', Event.rx '\r'] ++ List.replicate 7 (Event.poll (fun _ => NUL)))) ∧
    (run sampleH powerUp
        ([Event.rx 'A', Event.rx '\r'] ++ List.replicate 7 (Event.poll (fun _ => NUL)))).cmdIndex
      = 1 ∧
    (run sampleH powerUp
        ([Event.rx 'A', Event.rx '\r'] ++ List.replicate 7 (Event.poll (fun _ => NUL)))).cmdLen
      = 1 ∧
    (run sampleH powerUp
        ([Event.rx 'A', Event.rx '\r'] ++ List.replicate 7 (Event.poll (fun _ => NUL)))).active
      = true ∧
    Reachable sampleH
      (run sampleH powerUp
        ([Event.rx 'A', Event.rx '\r'] ++ List.replicate 13 (Event.poll (fun _ => NUL)))) ∧
    (run sampleH powerUp
        ([Event.rx 'A', Event.rx '\r'] ++ List.replicate 13 (Event.poll (fun _ => NUL)))).cmdIndex
      = 2 ∧
    (run sampleH powerUp
        ([Event.rx 'A', Event.rx '\r'] ++ List.replicate 13 (Event.poll (fun _ => NUL)))).cmdLen
      = 1 :=
  ⟨reachable_run sampleH _ powerUp Reachable.init, by decide, by decide, by decide,
   reachable_run sampleH _ powerUp Reachable.init, by decide, by decide⟩

/-- C16 at its script. With `!`, `<`, `A` and carriage return received from power-up
(optimisation on, script `<A` of length 2), the script is still active after each of
the fresh calls number 0, 1, 2 and 3, that is after 4 ticks, and it is the fresh call
number 4, the fifth tick, that clears `active`. The fresh call number 2 is the one that
dispatches `commands[2]`, the cell after the script. -/
theorem merged_script_five_ticks :
    (onByte (feed powerUp ['!', '<', 'A']) '\r').cmdLen = 2 ∧
    (onByte (feed powerUp ['!', '<', 'A']) '\r').optimize = true ∧
    (nthFresh sampleH (fun _ => NUL) (onByte (feed powerUp ['!', '<', 'A']) '\r') 0).state.active
      = true ∧
    (nthFresh sampleH (fun _ => NUL) (onByte (feed powerUp ['!', '<', 'A']) '\r') 1).state.active
      = true ∧
    (nthFresh sampleH (fun _ => NUL) (onByte (feed powerUp ['!', '<', 'A']) '\r') 2).state.active
      = true ∧
    (nthFresh sampleH (fun _ => NUL) (onByte (feed powerUp ['!', '<', 'A']) '\r') 2).reads
      = [2] ∧
    (nthFresh sampleH (fun _ => NUL) (onByte (feed powerUp ['!', '<', 'A']) '\r') 3).state.active
      = true ∧
    (nthFresh sampleH (fun _ => NUL) (onByte (feed powerUp ['!', '<', 'A']) '\r') 4).state.active
      = false := by
  decide

set_option maxRecDepth 100000 in
/-- C18 at a script that fills the buffer. From power-up, 32 characters `A` and the
carriage return are received and `GetNextReport` is called 192 times (64 fresh calls,
each with its two replays). The state reached has `cmdLen = 32` and `count = 63`, and
the next call of `GetNextReport` reads `commands` at the index 32, which is not below
the capacity `MAX_BUFFER = 32`. -/
theorem read_at_index_32 :
    Reachable sampleH
      (run sampleH powerUp
        (List.replicate 32 (Event.rx 'A') ++ [Event.rx '\r'] ++
          List.replicate 192 (Event.poll (fun _ => NUL)))) ∧
    (run sampleH powerUp
        (List.replicate 32 (Event.rx 'A') ++ [Event.rx '\r'] ++
          List.replicate 192 (Event.poll (fun _ => NUL)))).cmdLen = 32 ∧
    (run sampleH powerUp
        (List.replicate 32 (Event.rx 'A') ++ [Event.rx '\r'] ++
          List.replicate 192 (Event.poll (fun _ => NUL)))).count = 63 ∧
    (GetNextReport sampleH (fun _ => NUL)
      (run sampleH powerUp
        (List.replicate 32 (Event.rx 'A') ++ [Event.rx '\r'] ++
          List.replicate 192 (Event.poll (fun _ => NUL))))).reads = [32] ∧
    ¬ ((32 : Int) < (MAX_BUFFER : Int)) :=
  ⟨reachable_run sampleH _ powerUp Reachable.init, by decide, by decide, by decide, by decide⟩

/-- In every reachable state a call of `GetNextReport` reads `commands` only at indices
from 0 to `cmdLen`; so every read is below the capacity unless the script fills the
buffer, and in any case at most at the index 32. -/
theorem reads_within (h : JoystickH) (mem : Int → Char) (s : State) (hs : Reachable h s) :
    ∀ i ∈ (GetNextReport h mem s).reads, 0 ≤ i ∧ i ≤ (MAX_BUFFER : Int) ∧
      (s.cmdLen < (MAX_BUFFER : Int) → i < (MAX_BUFFER : Int)) := by
  obtain ⟨hb, _⟩ := reachable_bounded h s hs
  intro i hi
  obtain ⟨h1, h2⟩ := (GetNextReport_bounded h mem s hb).2 i hi
  have := hb.2.1
  exact ⟨h1, by omega, fun hlt => by omega⟩


/-! ## After the last frame of a script -/

/-- The dispatch of the character `c` when no merge is applicable. -/
theorem dispatch_unmerged (h : JoystickH) (mem : Int → Char) (s : State) (c : Char)
    (hno : optimizable s = false) (hc : readCommands mem s.commands s.cmdIndex = c) :
    dispatch h mem s =
      fin { s with holdDown := s.holdDown || decide (c = 'S') } (codeReport h c) [s.cmdIndex] := by
  subst hc
  unfold dispatch
  split <;> rename_i heq <;>
    first
      | (simp [heq, codeReport, hno, fin]; done)
      | simp_all [codeReport, fin]

/-- With nothing left to play, a call returns the neutral report, unless it replays a
saved one, and nothing is left to play afterwards. -/
theorem winding_poll (h : JoystickH) (mem : Int → Char) (s : State) (hw : Winding s) :
    Winding (GetNextReport h mem s).state ∧
    (s.echoes ≤ 0 → (GetNextReport h mem s).report = neutral h ∧
      (GetNextReport h mem s).state.last_report = neutral h) := by
  obtain ⟨w1, w2⟩ := hw
  by_cases he : s.echoes > 0
  · rw [GetNextReport_echo h mem s he]
    exact ⟨⟨w1, w2⟩, fun h0 => by omega⟩
  have he' : s.echoes ≤ 0 := by omega
  by_cases ha : s.active = true
  swap
  · have ha' : s.active = false := by simpa using ha
    rw [GetNextReport_idle h mem s he' ha']
    exact ⟨⟨w1, fun hf => absurd hf ha⟩, fun _ => ⟨rfl, rfl⟩⟩
  obtain ⟨hd, hc, hz⟩ := w2 ha
  obtain ⟨e1, e2⟩ := tmod_two (s.count + 1) (by omega)
  rcases e2 with hev | hodd
  swap
  · rw [GetNextReport_spacer h mem s he' ha hd (by omega)]
    refine ⟨⟨w1, fun _ => ⟨hd, by show -1 ≤ s.count + 1; omega, fun i hi hi2 => ?_⟩⟩,
      fun _ => ⟨rfl, rfl⟩⟩
    have hi' : s.count + 1 < 2 * (i.val : Int) := hi
    exact hz i (by omega) hi2
  have hcount : s.count + 1 = 2 * (s.count + 1).tdiv 2 := by omega
  by_cases hgt : s.cmdLen < (s.count + 1).tdiv 2
  · rw [GetNextReport_complete h mem s _ he' ha hd hcount hgt]
    exact ⟨⟨w1, fun hf => by cases hf⟩, fun _ => ⟨rfl, rfl⟩⟩
  · have hle : (s.count + 1).tdiv 2 ≤ s.cmdLen := by omega
    have hnn : 0 ≤ (s.count + 1).tdiv 2 := by omega
    have hlt : (s.count + 1).tdiv 2 < (MAX_BUFFER : Int) := by omega
    have hread : readCommands mem s.commands ((s.count + 1).tdiv 2) = NUL := by
      unfold readCommands
      rw [dif_pos ⟨hnn, hlt⟩]
      apply hz
      · simp only
        rw [Int.toNat_of_nonneg hnn]; omega
      · simp only
        rw [Int.toNat_of_nonneg hnn]; exact hle
    rw [GetNextReport_press h mem s _ ⟨he', ha, hd, hcount, hle⟩,
      dispatch_NUL h mem _ hread]
    refine ⟨⟨w1, fun _ => ⟨hd, ?_, fun i hi hi2 => ?_⟩⟩, fun _ => ⟨rfl, rfl⟩⟩
    · show -1 ≤ 2 * (s.count + 1).tdiv 2; omega
    · have hi' : 2 * (s.count + 1).tdiv 2 < 2 * (i.val : Int) := hi
      exact hz i (by omega) hi2

theorem winding_rx (s : State) (c : Char) (hc : c ≠ '\r') (hw : Winding s) :
    Winding (onByte s c) := by
  obtain ⟨e1, e2, e3, _, e5, e6, _, _⟩ := onByte_cursor s c hc
  unfold Winding
  rw [e1, e2, e3, e5, e6]
  exact hw

/-- With nothing left to play, the reports are: the saved report for as many calls as
there is echo credit, and the neutral report on every later call, until a carriage
return is received. -/
theorem reports_winding (h : JoystickH) (evs : List Event) (s : State)
    (hw : Winding s) (hev : ∀ e ∈ evs, Event.isPublish e = false) :
    ∀ (n : Nat) (r : Report), (reports h s evs)[n]? = some r →
      r = if (n : Int) < s.echoes then s.last_report else neutral h := by
  induction evs generalizing s with
  | nil => intro n r hr; simp [reports, outcomes] at hr
  | cons e evs ih =>
    have hev2 : ∀ e ∈ evs, Event.isPublish e = false :=
      fun e he => hev e (List.mem_cons_of_mem _ he)
    cases e with
    | rx c =>
      have hc : c ≠ '\r' := by
        have := hev (Event.rx c) (List.mem_cons_self _ _)
        simpa [Event.isPublish] using this
      rw [reports_rx]
      obtain ⟨e1, e2⟩ := onByte_echo s c
      have := ih (onByte s c) (winding_rx s c hc hw) hev2
      rw [e1, e2] at this
      exact this
    | poll mem =>
      rw [reports_poll]
      obtain ⟨w, hn⟩ := winding_poll h mem s hw
      intro n r hr
      by_cases he : s.echoes > 0
      · have hcall := GetNextReport_echo h mem s he
        cases n with
        | zero =>
          have : (GetNextReport h mem s).report = r := by simpa using hr
          rw [hcall] at this
          rw [if_pos (by simpa using he), ← this]
        | succ n =>
          have hr2 : (reports h (GetNextReport h mem s).state evs)[n]? = some r := by
            simpa using hr
          have := ih _ w hev2 n r hr2
          rw [hcall] at this
          rw [this]
          show (if (n : Int) < s.echoes - 1 then s.last_report else neutral h) = _
          by_cases hlt : (n : Int) < s.echoes - 1
          · rw [if_pos hlt, if_pos (by push_cast; omega)]
          · rw [if_neg hlt, if_neg (by push_cast; omega)]
      · obtain ⟨h1, h2⟩ := hn (by omega)
        rw [if_neg (by omega)]
        cases n with
        | zero =>
          have : (GetNextReport h mem s).report = r := by simpa using hr
          rw [← this, h1]
        | succ n =>
          have hr2 : (reports h (GetNextReport h mem s).state evs)[n]? = some r := by
            simpa using hr
          have := ih _ w hev2 n r hr2
          rw [this, h2]
          split <;> rfl

theorem winding_congr (s t : State) (h1 : s.commands = t.commands) (h2 : s.cmdLen = t.cmdLen)
    (h3 : s.count = t.count) (h4 : s.active = t.active) (h5 : s.holdDown = t.holdDown)
    (hw : Winding t) : Winding s := by
  unfold Winding
  rw [h1, h2, h3, h4, h5]
  exact hw

/-- The calls of `GetNextReport` alone return one report each. -/
theorem reports_polls_length (h : JoystickH) (mems : List (Int → Char)) (s : State) :
    (reports h s (mems.map Event.poll)).length = mems.length := by
  induction mems generalizing s with
  | nil => rfl
  | cons m ms ih =>
    rw [List.map_cons, reports_poll, List.length_cons, List.length_cons, ih]

/-- A fresh frame `a` after which nothing is left to play: the calls return `a` three
times, then the neutral report for ever. -/
theorem frame_then_neutral (h : JoystickH) (a : Report) (s : State)
    (hcall : ∀ mem : Int → Char, (GetNextReport h mem s).report = a ∧
      (GetNextReport h mem s).state.last_report = a ∧
      (GetNextReport h mem s).state.echoes = 2 ∧ Winding (GetNextReport h mem s).state)
    (mems : List (Int → Char)) :
    ∀ (n : Nat) (r : Report), (reports h s (mems.map Event.poll))[n]? = some r →
      r = if n < 3 then a else neutral h := by
  cases mems with
  | nil => intro n r hr; simp [reports, outcomes] at hr
  | cons m ms =>
    obtain ⟨c1, c2, c3, c4⟩ := hcall m
    rw [List.map_cons, reports_poll]
    intro n r hr
    cases n with
    | zero =>
      have : (GetNextReport h m s).report = r := by simpa using hr
      rw [← this, c1]; rfl
    | succ n =>
      have hr2 : (reports h (GetNextReport h m s).state (ms.map Event.poll))[n]? = some r := by
        simpa using hr
      have hev : ∀ e ∈ ms.map Event.poll, Event.isPublish e = false := by
        intro e he
        obtain ⟨m2, _, rfl⟩ := List.mem_map.1 he
        rfl
      have := reports_winding h (ms.map Event.poll) _ c4 hev n r hr2
      rw [this, c2, c3]
      by_cases hlt : n < 2
      · rw [if_pos (by exact_mod_cast hlt), if_pos (by omega)]
      · rw [if_neg (by exact_mod_cast hlt), if_neg (by omega)]

/-! ## End to end -/

/-- C12. From power-up (no script, echo credit 0, optimisation off), once `A` and the
carriage return are received, the successive calls of `GetNextReport` return the
report with only the button A pressed three times (the fresh frame and its two
replays) and the neutral report on every later call (the spacer, its two replays, and
so on for ever). Every call returns a report. -/
theorem script_A_end_to_end (h : JoystickH) (mems : List (Int → Char)) :
    (reports h (feed powerUp ['A', '\r']) (mems.map Event.poll)).length = mems.length ∧
    ∀ (n : Nat) (r : Report),
      (reports h (feed powerUp ['A', '\r']) (mems.map Event.poll))[n]? = some r →
      r = if n < 3 then (neutral h).press h.SWITCH_A else neutral h := by
  refine ⟨reports_polls_length h mems _, ?_⟩
  apply frame_then_neutral
  intro mem
  have ht : PressTick (feed powerUp ['A', '\r']) 0 := ⟨by decide, rfl, rfl, by decide, by decide⟩
  obtain ⟨h1, h2⟩ := GetNextReport_press_plain h mem (feed powerUp ['A', '\r']) 0 'A' ht rfl rfl
  have hcode : codeReport h 'A' = (neutral h).press h.SWITCH_A := by
    simp [codeReport]
  rw [hcode] at h1 h2
  refine ⟨h1, by rw [h2], by rw [h2]; rfl, ?_⟩
  apply winding_congr _ { feed powerUp ['A', '\r'] with count := 0 }
    (by rw [h2]) (by rw [h2]) (by rw [h2]; rfl) (by rw [h2]) (by rw [h2]; rfl)
  unfold Winding
  decide

/-- C13. From power-up (echo credit 0), once `!`, `<`, `A` and the carriage return are
received, the successive calls of `GetNextReport` return the merged report, hat at
`HAT_LEFT` and button A pressed, three times (the fresh frame and its two replays) and
the neutral report on every later call. Provided the button A shows in the button field
and `HAT_LEFT` differs from `HAT_CENTER`, no call returns a report with the hat left and
no button, nor one with the button A and the hat centred. -/
theorem script_left_A_end_to_end (h : JoystickH) (mems : List (Int → Char)) :
    (reports h (feed powerUp ['!', '<', 'A', '\r']) (mems.map Event.poll)).length
      = mems.length ∧
    (∀ (n : Nat) (r : Report),
      (reports h (feed powerUp ['!', '<', 'A', '\r']) (mems.map Event.poll))[n]? = some r →
      r = if n < 3 then ((neutral h).hat h.HAT_LEFT).press h.SWITCH_A else neutral h) ∧
    ((neutral h).Button ||| h.SWITCH_A ≠ (neutral h).Button → h.HAT_LEFT ≠ h.HAT_CENTER →
      ∀ r ∈ reports h (feed powerUp ['!', '<', 'A', '\r']) (mems.map Event.poll),
        ¬ (r.HAT = h.HAT_LEFT ∧ r.Button = (neutral h).Button) ∧
        ¬ (r.Button = (neutral h).Button ||| h.SWITCH_A ∧ r.HAT = h.HAT_CENTER)) := by
  have hall : ∀ (n : Nat) (r : Report),
      (reports h (feed powerUp ['!', '<', 'A', '\r']) (mems.map Event.poll))[n]? = some r →
      r = if n < 3 then ((neutral h).hat h.HAT_LEFT).press h.SWITCH_A else neutral h := by
    apply frame_then_neutral
    intro mem
    have ht : PressTick (feed powerUp ['!', '<', 'A', '\r']) 0 :=
      ⟨by decide, rfl, rfl, by decide, by decide⟩
    have hcall : GetNextReport h mem (feed powerUp ['!', '<', 'A', '\r']) =
        fin { feed powerUp ['!', '<', 'A', '\r'] with count := 2 * 0 + 2, cmdIndex := 0 + 1 }
          (mergedReport h '<' 'A') [0, 0 + 1] := by
      rw [GetNextReport_press h mem _ 0 ht]
      exact dispatch_merge h mem _ '<' 'A' (by decide) rfl rfl (Or.inl ⟨Or.inl rfl, Or.inl rfl⟩)
    have hmerged : mergedReport h '<' 'A' = ((neutral h).hat h.HAT_LEFT).press h.SWITCH_A := by
      simp [mergedReport, padOf, buttonOf, Report.hat, Report.press]
    rw [hmerged] at hcall
    rw [hcall]
    refine ⟨rfl, rfl, rfl, ?_⟩
    apply winding_congr _ { feed powerUp ['!', '<', 'A', '\r'] with count := 2, cmdIndex := 1 }
      rfl rfl rfl rfl rfl
    unfold Winding
    decide
  refine ⟨reports_polls_length h mems _, hall, fun hA hL r hr => ?_⟩
  obtain ⟨n, hn⟩ := List.getElem?_of_mem hr
  have := hall n r hn
  by_cases hlt : n < 3
  · rw [if_pos hlt] at this
    subst this
    refine ⟨fun hc => hA hc.2, fun hc => hL hc.2⟩
  · rw [if_neg hlt] at this
    subst this
    refine ⟨fun hc => hL hc.1.symm, fun hc => hA hc.1.symm⟩

theorem script_left_A_end_to_end_witness :
    ((neutral sampleH).Button ||| sampleH.SWITCH_A ≠ (neutral sampleH).Button ∧
      sampleH.HAT_LEFT ≠ sampleH.HAT_CENTER ∧
      (⟨4, 6, 128, 128, 128, 128⟩ : Report) ∈
        reports sampleH (feed powerUp ['!', '<', 'A', '\r'])
          ([fun _ => NUL, fun _ => NUL].map Event.poll)) ∧
    ¬ ((⟨4, 6, 128, 128, 128, 128⟩ : Report).HAT = sampleH.HAT_LEFT ∧
        (⟨4, 6, 128, 128, 128, 128⟩ : Report).Button = (neutral sampleH).Button) :=
  ⟨⟨by decide, by decide, by decide⟩,
   ((script_left_A_end_to_end sampleH [fun _ => NUL, fun _ => NUL]).2.2
      (by decide) (by decide) ⟨4, 6, 128, 128, 128, 128⟩ (by decide)).1⟩


/-! ## Scripts without mergeable pairs -/

/-- The lookahead of `<` and `>` on a character that is neither `A` nor `B`. -/
theorem mergeButton_other (h : JoystickH) (mem : Int → Char) (s : State) (r : Report)
    (hA : readCommands mem s.commands (s.cmdIndex + 1) ≠ 'A')
    (hB : readCommands mem s.commands (s.cmdIndex + 1) ≠ 'B') :
    mergeButton h mem s r = fin s r [s.cmdIndex, s.cmdIndex + 1] := by
  unfold mergeButton
  split
  · rename_i e; exact absurd e hA
  · rename_i e; exact absurd e hB
  · rfl

/-- The lookahead of `A` and `B` on a character that is not `D`. -/
theorem mergeUp_other (h : JoystickH) (mem : Int → Char) (s : State) (r : Report)
    (hD : readCommands mem s.commands (s.cmdIndex + 1) ≠ 'D') :
    mergeUp h mem s r = fin s r [s.cmdIndex, s.cmdIndex + 1] := by
  unfold mergeUp
  rw [if_neg hD]

/-- The dispatch with the optimisation applicable on a pair that is not mergeable: the
report and the state are those of the dispatch without merge. -/
theorem dispatch_lookahead (h : JoystickH) (mem : Int → Char) (s : State)
    (ho : optimizable s = true)
    (hnm : ¬ Mergeable (readCommands mem s.commands s.cmdIndex)
      (readCommands mem s.commands (s.cmdIndex + 1))) :
    (dispatch h mem s).report = codeReport h (readCommands mem s.commands s.cmdIndex) ∧
    (dispatch h mem s).state =
      { s with holdDown := s.holdDown || decide (readCommands mem s.commands s.cmdIndex = 'S'),
               last_report := codeReport h (readCommands mem s.commands s.cmdIndex),
               echoes := ECHOES } := by
  have hnot : (!optimizable s) = false := by rw [ho]; rfl
  unfold dispatch
  split <;> rename_i heq
  case h_2 | h_3 =>
    have hA : readCommands mem s.commands (s.cmdIndex + 1) ≠ 'A' :=
      fun e => hnm (Or.inl ⟨by simp [heq], Or.inl e⟩)
    have hB : readCommands mem s.commands (s.cmdIndex + 1) ≠ 'B' :=
      fun e => hnm (Or.inl ⟨by simp [heq], Or.inr e⟩)
    simp only [hnot, Bool.false_eq_true, if_false, mergeButton_other h mem s _ hA hB]
    simp [heq, codeReport, fin]
  case h_6 | h_7 =>
    have hD : readCommands mem s.commands (s.cmdIndex + 1) ≠ 'D' :=
      fun e => hnm (Or.inr ⟨by simp [heq], e⟩)
    simp only [hnot, Bool.false_eq_true, if_false, mergeUp_other h mem s _ hD]
    simp [heq, codeReport, fin]
  all_goals first
    | (simp [heq, codeReport, fin]; done)
    | simp_all [codeReport, fin]

/-- Inside the array, the read is the cell. -/
theorem readCommands_inside (mem : Int → Char) (cmds : Buffer) (i : Fin MAX_BUFFER) :
    readCommands mem cmds (i.val : Int) = cmds.get i := by
  unfold readCommands
  rw [dif_pos ⟨by omega, by exact_mod_cast i.2⟩]
  congr 1

/-- On a script without mergeable pairs the dispatch does not depend on the
optimisation flag. -/
theorem dispatch_erase (h : JoystickH) (mem : Int → Char) (s : State)
    (h0 : 0 ≤ s.cmdIndex) (hlen : s.cmdLen ≤ (MAX_BUFFER : Int)) (hnp : NoPair s) :
    (dispatch h mem s).report = (dispatch h mem (eraseOptimize s)).report ∧
    eraseOptimize (dispatch h mem s).state
      = eraseOptimize (dispatch h mem (eraseOptimize s)).state := by
  have hno : optimizable (eraseOptimize s) = false := by simp [optimizable, eraseOptimize]
  have hr := dispatch_unmerged h mem (eraseOptimize s)
    (readCommands mem s.commands s.cmdIndex) hno rfl
  rw [hr]
  by_cases ho : optimizable s = true
  · have hlt : s.cmdIndex + 1 < s.cmdLen := by
      simp only [optimizable, Bool.and_eq_true, decide_eq_true_eq] at ho
      exact ho.2
    have hi : s.cmdIndex.toNat < MAX_BUFFER := by
      have : (MAX_BUFFER : Int) = 32 := rfl
      unfold MAX_BUFFER; omega
    have hj : s.cmdIndex.toNat + 1 < MAX_BUFFER := by
      have : (MAX_BUFFER : Int) = 32 := rfl
      unfold MAX_BUFFER; omega
    have e1 := readCommands_inside mem s.commands ⟨s.cmdIndex.toNat, hi⟩
    have e2 := readCommands_inside mem s.commands ⟨s.cmdIndex.toNat + 1, hj⟩
    have c1 : ((s.cmdIndex.toNat : Nat) : Int) = s.cmdIndex := Int.toNat_of_nonneg h0
    have c2 : ((s.cmdIndex.toNat + 1 : Nat) : Int) = s.cmdIndex + 1 := by
      push_cast; rw [c1]
    simp only [c1] at e1
    simp only [c2] at e2
    have hnm : ¬ Mergeable (readCommands mem s.commands s.cmdIndex)
        (readCommands mem s.commands (s.cmdIndex + 1)) := by
      rw [e1, e2]
      exact hnp ⟨s.cmdIndex.toNat, hi⟩ ⟨s.cmdIndex.toNat + 1, hj⟩ rfl
        (by show ((s.cmdIndex.toNat + 1 : Nat) : Int) < s.cmdLen; rw [c2]; exact hlt)
    obtain ⟨d1, d2⟩ := dispatch_lookahead h mem s ho hnm
    rw [d1, d2]
    exact ⟨rfl, rfl⟩
  · have ho' : optimizable s = false := by simpa using ho
    rw [dispatch_unmerged h mem s (readCommands mem s.commands s.cmdIndex) ho' rfl]
    exact ⟨rfl, rfl⟩

/-- On a script without mergeable pairs a call of `GetNextReport` does not depend on the
optimisation flag: same report, same state but for the flag. -/
theorem GetNextReport_erase (h : JoystickH) (mem : Int → Char) (s : State)
    (hc : -1 ≤ s.count) (hlen : s.cmdLen ≤ (MAX_BUFFER : Int)) (hnp : NoPair s) :
    (GetNextReport h mem s).report = (GetNextReport h mem (eraseOptimize s)).report ∧
    eraseOptimize (GetNextReport h mem s).state
      = eraseOptimize (GetNextReport h mem (eraseOptimize s)).state := by
  by_cases he : s.echoes > 0
  · rw [GetNextReport_echo h mem s he, GetNextReport_echo h mem (eraseOptimize s) he]
    exact ⟨rfl, rfl⟩
  have he' : s.echoes ≤ 0 := by omega
  by_cases ha : s.active = true
  swap
  · have ha' : s.active = false := by simpa using ha
    rw [GetNextReport_idle h mem s he' ha', GetNextReport_idle h mem (eraseOptimize s) he' ha']
    exact ⟨rfl, rfl⟩
  by_cases hd : s.holdDown = true
  · rw [GetNextReport_hold h mem s he' ha hd, GetNextReport_hold h mem (eraseOptimize s) he' ha hd]
    exact ⟨rfl, rfl⟩
  have hd' : s.holdDown = false := by simpa using hd
  obtain ⟨e1, e2⟩ := tmod_two (s.count + 1) (by omega)
  rcases e2 with hev | hodd
  swap
  · rw [GetNextReport_spacer h mem s he' ha hd' (by omega),
      GetNextReport_spacer h mem (eraseOptimize s) he' ha hd'
        (by show (s.count + 1).tmod 2 ≠ 0; omega)]
    exact ⟨rfl, rfl⟩
  have hcount : s.count + 1 = 2 * (s.count + 1).tdiv 2 := by omega
  by_cases hgt : s.cmdLen < (s.count + 1).tdiv 2
  · rw [GetNextReport_complete h mem s _ he' ha hd' hcount hgt,
      GetNextReport_complete h mem (eraseOptimize s) _ he' ha hd' hcount hgt]
    exact ⟨rfl, rfl⟩
  · have hle : (s.count + 1).tdiv 2 ≤ s.cmdLen := by omega
    rw [GetNextReport_press h mem s _ ⟨he', ha, hd', hcount, hle⟩,
      GetNextReport_press h mem (eraseOptimize s) _ ⟨he', ha, hd', hcount, hle⟩]
    exact dispatch_erase h mem
      { s with count := 2 * (s.count + 1).tdiv 2, cmdIndex := (s.count + 1).tdiv 2 }
      (by show 0 ≤ (s.count + 1).tdiv 2; omega) hlen hnp

/-- The receive handler commutes with clearing the optimisation flag. -/
theorem onByte_erase (s : State) (c : Char) :
    eraseOptimize (onByte s c) = eraseOptimize (onByte (eraseOptimize s) c) := by
  unfold onByte
  by_cases h1 : c = '\r'
  · rw [if_pos h1, if_pos h1]; rfl
  rw [if_neg h1, if_neg h1]
  by_cases h2 : c = '!'
  · rw [if_pos h2, if_pos h2]; rfl
  rw [if_neg h2, if_neg h2]
  by_cases h3 : c = '?'
  · rw [if_pos h3, if_pos h3]; rfl
  rw [if_neg h3, if_neg h3]
  by_cases h4 : c ≠ '\n' ∧ s.l < MAX_BUFFER
  · rw [dif_pos h4, dif_pos (show c ≠ '\n' ∧ (eraseOptimize s).l < MAX_BUFFER from h4)]; rfl
  · rw [dif_neg h4, dif_neg (show ¬ (c ≠ '\n' ∧ (eraseOptimize s).l < MAX_BUFFER) from h4)]
    rfl

theorem feed_erase (w : List Char) (a b : State) (hab : eraseOptimize a = eraseOptimize b) :
    eraseOptimize (feed a w) = eraseOptimize (feed b w) := by
  induction w generalizing a b with
  | nil => exact hab
  | cons c w ih =>
    apply ih (onByte a c) (onByte b c)
    rw [onByte_erase a c, onByte_erase b c, hab]


/-- The relation kept along two runs that differ in the optimisation flag only, on a
script without mergeable pairs. -/
theorem erase_step (h : JoystickH) (e : Event) (a b : State)
    (hab : eraseOptimize a = eraseOptimize b) (hc : -1 ≤ a.count)
    (hlen : a.cmdLen ≤ (MAX_BUFFER : Int)) (hnp : NoPair a)
    (hev : Event.isPublish e = false) :
    eraseOptimize (step h a e) = eraseOptimize (step h b e) ∧
    -1 ≤ (step h a e).count ∧ (step h a e).cmdLen ≤ (MAX_BUFFER : Int) ∧ NoPair (step h a e) ∧
    ∀ mem, e = Event.poll mem →
      (GetNextReport h mem a).report = (GetNextReport h mem b).report := by
  have hb1 : b.count = a.count := (congrArg State.count hab).symm
  have hb2 : b.cmdLen = a.cmdLen := (congrArg State.cmdLen hab).symm
  have hb3 : b.commands = a.commands := (congrArg State.commands hab).symm
  have hnpb : NoPair b := by
    unfold NoPair; rw [hb2, hb3]; exact hnp
  cases e with
  | rx c =>
    have hcr : c ≠ '\r' := by simpa [Event.isPublish] using hev
    obtain ⟨e1, e2, e3, _⟩ := onByte_cursor a c hcr
    refine ⟨?_, ?_, ?_, ?_, fun mem hm => by cases hm⟩
    · show eraseOptimize (onByte a c) = eraseOptimize (onByte b c)
      rw [onByte_erase a c, onByte_erase b c, hab]
    · show -1 ≤ (onByte a c).count; rw [e3]; exact hc
    · show (onByte a c).cmdLen ≤ _; rw [e2]; exact hlen
    · show NoPair (onByte a c)
      unfold NoPair; rw [e1, e2]; exact hnp
  | poll mem =>
    obtain ⟨r1, s1⟩ := GetNextReport_erase h mem a hc hlen hnp
    obtain ⟨r2, s2⟩ := GetNextReport_erase h mem b (by rw [hb1]; exact hc)
      (by rw [hb2]; exact hlen) hnpb
    obtain ⟨f1, f2, _, _, _⟩ := GetNextReport_frame h mem a
    refine ⟨?_, ?_, ?_, ?_, fun mem2 hm => ?_⟩
    · show eraseOptimize (GetNextReport h mem a).state = eraseOptimize (GetNextReport h mem b).state
      rw [s1, s2, hab]
    · exact le_trans hc (GetNextReport_trace h mem a).1
    · show (GetNextReport h mem a).state.cmdLen ≤ _; rw [f2]; exact hlen
    · show NoPair (GetNextReport h mem a).state
      unfold NoPair; rw [f1, f2]; exact hnp
    · cases hm
      rw [r1, r2, hab]

/-- Two runs that differ in the optimisation flag only, on a script without mergeable
pairs: same reports, same states but for the flag. -/
theorem erase_run (h : JoystickH) (evs : List Event) (a b : State)
    (hab : eraseOptimize a = eraseOptimize b) (hc : -1 ≤ a.count)
    (hlen : a.cmdLen ≤ (MAX_BUFFER : Int)) (hnp : NoPair a)
    (hev : ∀ e ∈ evs, Event.isPublish e = false) :
    reports h a evs = reports h b evs ∧
    eraseOptimize (run h a evs) = eraseOptimize (run h b evs) := by
  induction evs generalizing a b with
  | nil => exact ⟨rfl, hab⟩
  | cons e evs ih =>
    have hev2 : ∀ e ∈ evs, Event.isPublish e = false :=
      fun e he => hev e (List.mem_cons_of_mem _ he)
    obtain ⟨k1, k2, k3, k4, k5⟩ := erase_step h e a b hab hc hlen hnp
      (hev e (List.mem_cons_self _ _))
    obtain ⟨i1, i2⟩ := ih (step h a e) (step h b e) k1 k2 k3 k4 hev2
    cases e with
    | rx c => exact ⟨i1, i2⟩
    | poll mem =>
      refine ⟨?_, i2⟩
      rw [reports_poll, reports_poll, k5 mem rfl]
      congr 1

/-- A published script without mergeable pairs gives a state without mergeable
pairs. -/
theorem published_nopair (s : State) (S : List Char)
    (hb : s.b = zeroBuffer) (hl : s.l = 0)
    (hS : ∀ c ∈ S, c ≠ '\r' ∧ isControl c = false) (hlen : S.length ≤ MAX_BUFFER)
    (hpair : ∀ (k : Nat) (hk : k + 1 < S.length),
      ¬ Mergeable (S.get ⟨k, Nat.lt_of_succ_lt hk⟩) (S.get ⟨k + 1, hk⟩)) :
    NoPair (onByte (feed s S) '\r') := by
  obtain ⟨hc, hN, _⟩ := published_state s S hb hl hS hlen
  obtain ⟨r1, _, _⟩ := readCommands_staged (fun _ => NUL) _ S hc hlen
  intro i j hij hj
  rw [hN] at hj
  have hj2 : j.val < S.length := by exact_mod_cast hj
  have hk : i.val + 1 < S.length := by omega
  have ei := r1 i.val (by omega)
  have ej := r1 j.val hj2
  rw [readCommands_inside] at ei ej
  rw [ei, ej]
  have := hpair i.val hk
  have e : (⟨j.val, hj2⟩ : Fin S.length) = ⟨i.val + 1, hk⟩ := Fin.ext hij
  rw [e]
  exact this

/-- C17. Let `S` be a script in which no two neighbouring characters form a pair that
the optimisation merges (`<` or `>` then `A` or `B`; `A` or `B` then `D`). Published
once after `!` (flag set) and once after `?` (flag cleared), it gives the same reports
and the same cursor (`count`, `cmdIndex`, `active`, `holdDown`) along every sequence of
calls of `GetNextReport` and of received characters other than the carriage return.
Moreover a press tick for the last index of the script, or beyond, never merges,
whatever the flag: it returns the report of its character alone, reads that one cell,
and advances the tick counter by one. -/
theorem no_merge_fallback (h : JoystickH) (s : State) (S : List Char)
    (hb : s.b = zeroBuffer) (hl : s.l = 0)
    (hS : ∀ c ∈ S, c ≠ '\r' ∧ isControl c = false) (hlen : S.length ≤ MAX_BUFFER)
    (hpair : ∀ (k : Nat) (hk : k + 1 < S.length),
      ¬ Mergeable (S.get ⟨k, Nat.lt_of_succ_lt hk⟩) (S.get ⟨k + 1, hk⟩)) :
    (onByte (feed s ('!' :: S)) '\r').optimize = true ∧
    (onByte (feed s ('?' :: S)) '\r').optimize = false ∧
    (∀ evs : List Event, (∀ e ∈ evs, Event.isPublish e = false) →
      reports h (onByte (feed s ('!' :: S)) '\r') evs
        = reports h (onByte (feed s ('?' :: S)) '\r') evs ∧
      (run h (onByte (feed s ('!' :: S)) '\r') evs).count
        = (run h (onByte (feed s ('?' :: S)) '\r') evs).count ∧
      (run h (onByte (feed s ('!' :: S)) '\r') evs).cmdIndex
        = (run h (onByte (feed s ('?' :: S)) '\r') evs).cmdIndex ∧
      (run h (onByte (feed s ('!' :: S)) '\r') evs).active
        = (run h (onByte (feed s ('?' :: S)) '\r') evs).active ∧
      (run h (onByte (feed s ('!' :: S)) '\r') evs).holdDown
        = (run h (onByte (feed s ('?' :: S)) '\r') evs).holdDown) ∧
    (∀ (mem : Int → Char) (t : State) (k : Int), PressTick t k → t.cmdLen ≤ k + 1 →
      (GetNextReport h mem t).report = codeReport h (readCommands mem t.commands k) ∧
      (GetNextReport h mem t).reads = [k] ∧
      (GetNextReport h mem t).state.count = t.count + 1) := by
  have hfa : feed s ('!' :: S) = feed (onByte s '!') S := rfl
  have hfb : feed s ('?' :: S) = feed (onByte s '?') S := rfl
  have hba : (onByte s '!').b = zeroBuffer := hb
  have hla : (onByte s '!').l = 0 := hl
  have hbb : (onByte s '?').b = zeroBuffer := hb
  have hlb : (onByte s '?').l = 0 := hl
  obtain ⟨_, aN, ao⟩ := published_state (onByte s '!') S hba hla hS hlen
  obtain ⟨_, _, bo⟩ := published_state (onByte s '?') S hbb hlb hS hlen
  have hnp := published_nopair (onByte s '!') S hba hla hS hlen hpair
  have hab : eraseOptimize (onByte (feed (onByte s '!') S) '\r')
      = eraseOptimize (onByte (feed (onByte s '?') S) '\r') := by
    rw [onByte_erase, onByte_erase (feed (onByte s '?') S)]
    rw [feed_erase S (onByte s '!') (onByte s '?') rfl]
  rw [hfa, hfb]
  refine ⟨by rw [ao]; rfl, by rw [bo]; rfl, fun evs hev => ?_, fun mem t k ht hk => ?_⟩
  · obtain ⟨e1, e2⟩ := erase_run h evs _ _ hab (by show (-1 : Int) ≤ -1; omega)
      (by rw [aN]; exact_mod_cast hlen) hnp hev
    have c1 := congrArg State.count e2
    have c2 := congrArg State.cmdIndex e2
    have c3 := congrArg State.active e2
    have c4 := congrArg State.holdDown e2
    exact ⟨e1, c1, c2, c3, c4⟩
  · have hno : optimizable { t with count := 2 * k, cmdIndex := k } = false := by
      have : ¬ (k + 1 < t.cmdLen) := by omega
      simp [optimizable, this]
    rw [GetNextReport_press h mem t k ht,
      dispatch_unmerged h mem { t with count := 2 * k, cmdIndex := k }
        (readCommands mem t.commands k) hno rfl]
    refine ⟨rfl, rfl, ?_⟩
    show 2 * k = t.count + 1
    rw [ht.2.2.2.1]

theorem no_merge_fallback_witness :
    (powerUp.b = zeroBuffer ∧ powerUp.l = 0 ∧
      (∀ c ∈ ['A', '<'], c ≠ '\r' ∧ isControl c = false) ∧ ['A', '<'].length ≤ MAX_BUFFER) ∧
    ((onByte (feed powerUp ('!' :: ['A', '<'])) '\r').optimize = true ∧
      (onByte (feed powerUp ('?' :: ['A', '<'])) '\r').optimize = false) :=
  ⟨⟨rfl, rfl, by decide, by decide⟩,
   (no_merge_fallback sampleH powerUp ['A', '<'] rfl rfl (by decide) (by decide)
      (by
        intro k hk
        have hk0 : k = 0 := by simp at hk; omega
        subst hk0
        show ¬ Mergeable 'A' '<'
        unfold Mergeable
        decide)).1,
   (no_merge_fallback sampleH powerUp ['A', '<'] rfl rfl (by decide) (by decide)
      (by
        intro k hk
        have hk0 : k = 0 := by simp at hk; omega
        subst hk0
        show ¬ Mergeable 'A' '<'
        unfold Mergeable
        decide)).2.1⟩

/-! ## The hold path -/

/-- The latch is only ever set in a script in progress: in every reachable state,
`holdDown` implies `active`. -/
theorem reachable_hold_active (h : JoystickH) (s : State) (hs : Reachable h s) :
    s.holdDown = true → s.active = true := by
  induction hs with
  | init => intro hf; cases hf
  | rx s c _ ih =>
    by_cases hc : c = '\r'
    · subst hc; intro hf; cases hf
    · obtain ⟨_, _, _, _, e5, e6, _, _⟩ := onByte_cursor s c hc
      rw [e5, e6]; exact ih
  | poll s mem _ ih =>
    unfold GetNextReport
    split
    · exact ih
    split
    · exact ih
    split
    · exact ih
    rename_i hact hhold
    have ha : s.active = true := by simpa using hact
    simp only []
    split
    · exact fun _ => ha
    split
    · intro hf
      have : s.holdDown = true := hf
      exact absurd this hhold
    · intro _
      rw [(dispatch_cursor h mem _).1]
      exact ha

/-- With the latch set, the fresh calls leave the cursor where it is. -/
theorem hold_run (h : JoystickH) (mem : Int → Char) (j : Nat) (s : State)
    (ha : s.active = true) (hd : s.holdDown = true) :
    (nthFresh h mem s j).state.active = true ∧
    (nthFresh h mem s j).state.holdDown = true ∧
    (nthFresh h mem s j).state.count = s.count ∧
    (nthFresh h mem s j).state.cmdIndex = s.cmdIndex := by
  have hstep : ∀ t : State, t.active = true → t.holdDown = true →
      (freshCall h mem t).state.active = true ∧ (freshCall h mem t).state.holdDown = true ∧
      (freshCall h mem t).state.count = t.count ∧
      (freshCall h mem t).state.cmdIndex = t.cmdIndex := by
    intro t hta htd
    rw [freshCall_eq h mem t,
      GetNextReport_hold h mem { t with echoes := 0 } (le_refl (0 : Int)) hta htd]
    exact ⟨hta, htd, rfl, rfl⟩
  induction j generalizing s with
  | zero => exact hstep s ha hd
  | succ j ih =>
    obtain ⟨h1, h2, h3, h4⟩ := hstep s ha hd
    have := ih (freshCall h mem s).state h1 h2
    rw [h3, h4] at this
    exact this

/-- C15, amended. In a reachable state with the hold latch set and echo credit 0,
`GetNextReport` returns the report with the hat at `HAT_BOTTOM` and everything else
neutral, reads no script character, and leaves the cursor as it is: `count`,
`cmdIndex`, `active` and `holdDown` are unchanged (only the echo stage is reloaded).
So script progression does not advance on that call, nor on any later one: after every
further fresh call the script is still active with the latch set and the same tick
counter. -/
theorem hold_keeps_cursor (h : JoystickH) (mem : Int → Char) (s : State)
    (hs : Reachable h s) (he : s.echoes = 0) (hd : s.holdDown = true) :
    (GetNextReport h mem s).report = downReport h ∧
    (GetNextReport h mem s).reads = [] ∧
    (GetNextReport h mem s).state = { s with last_report := downReport h, echoes := ECHOES } ∧
    (GetNextReport h mem s).state.count = s.count ∧
    ∀ j : Nat, (nthFresh h mem s j).state.active = true ∧
      (nthFresh h mem s j).state.holdDown = true ∧
      (nthFresh h mem s j).state.count = s.count ∧
      (nthFresh h mem s j).state.cmdIndex = s.cmdIndex := by
  have ha := reachable_hold_active h s hs hd
  rw [GetNextReport_hold h mem s (by omega) ha hd]
  exact ⟨rfl, rfl, rfl, rfl, fun j => hold_run h mem j s ha hd⟩

theorem hold_keeps_cursor_witness :
    (Reachable sampleH
        (run sampleH powerUp
          ([Event.rx 'S', Event.rx '\r'] ++ List.replicate 3 (Event.poll (fun _ => NUL)))) ∧
      (run sampleH powerUp
          ([Event.rx 'S', Event.rx '\r'] ++ List.replicate 3 (Event.poll (fun _ => NUL)))).echoes
        = 0 ∧
      (run sampleH powerUp
          ([Event.rx 'S', Event.rx '\r'] ++ List.replicate 3 (Event.poll (fun _ => NUL)))).holdDown
        = true) ∧
    (GetNextReport sampleH (fun _ => NUL)
        (run sampleH powerUp
          ([Event.rx 'S', Event.rx '\r'] ++
            List.replicate 3 (Event.poll (fun _ => NUL))))).state.count
      = (run sampleH powerUp
          ([Event.rx 'S', Event.rx '\r'] ++ List.replicate 3 (Event.poll (fun _ => NUL)))).count :=
  ⟨⟨reachable_run sampleH _ powerUp Reachable.init, by decide, by decide⟩,
   (hold_keeps_cursor sampleH (fun _ => NUL) _
      (reachable_run sampleH _ powerUp Reachable.init) (by decide) (by decide)).2.2.2.1⟩

set_option maxRecDepth 100000 in
/-- C15 as stated fails. The script `dSd` is published from power-up and its fresh
calls number 0 to 2 are made, the last of which dispatches `S`: the tick counter stands
at 2. The next fresh call, made with the latch set and echo credit 0, leaves the tick
counter at 2 instead of advancing it to 3, and after the fresh call number 40 the
counter is still 2 and the script is still active: it does not run to completion and
its last character is never dispatched. -/
theorem hold_stops_the_counter :
    (drain sampleH (fun _ => NUL)
        (nthFresh sampleH (fun _ => NUL) (onByte (feed powerUp ['d', 'S', 'd']) '\r') 2).state).holdDown
      = true ∧
    (drain sampleH (fun _ => NUL)
        (nthFresh sampleH (fun _ => NUL) (onByte (feed powerUp ['d', 'S', 'd']) '\r') 2).state).echoes
      = 0 ∧
    (nthFresh sampleH (fun _ => NUL) (onByte (feed powerUp ['d', 'S', 'd']) '\r') 2).state.count = 2 ∧
    (nthFresh sampleH (fun _ => NUL) (onByte (feed powerUp ['d', 'S', 'd']) '\r') 3).state.count = 2 ∧
    (nthFresh sampleH (fun _ => NUL) (onByte (feed powerUp ['d', 'S', 'd']) '\r') 3).report
      = downReport sampleH ∧
    (nthFresh sampleH (fun _ => NUL) (onByte (feed powerUp ['d', 'S', 'd']) '\r') 40).state.count = 2 ∧
    (nthFresh sampleH (fun _ => NUL) (onByte (feed powerUp ['d', 'S', 'd']) '\r') 40).state.active
      = true := by
  decide



/-! ## Playback of a published script -/

/-- In a reachable state, a call of `GetNextReport` that reads the cell past the array
reads it as `commands[cmdIndex]` with `cmdIndex = 32`, reads nothing else, and leaves
`cmdIndex` at 32: at that read the low byte of `cmdIndex` is 32. -/
theorem read_past_array (h : JoystickH) (mem : Int → Char) (s : State)
    (hs : Reachable h s) (hr : (32 : Int) ∈ (GetNextReport h mem s).reads) :
    (GetNextReport h mem s).reads = [32] ∧ (GetNextReport h mem s).state.cmdIndex = 32 := by
  obtain ⟨⟨_, b2, b3, _, _, _, _⟩, _⟩ := reachable_bounded h s hs
  have hM : (MAX_BUFFER : Int) = 32 := rfl
  by_cases he : s.echoes > 0
  · rw [GetNextReport_echo h mem s he] at hr; simp at hr
  have he' : s.echoes ≤ 0 := by omega
  by_cases ha : s.active = true
  swap
  · have ha' : s.active = false := by simpa using ha
    rw [GetNextReport_idle h mem s he' ha'] at hr; simp [fin] at hr
  by_cases hd : s.holdDown = true
  · rw [GetNextReport_hold h mem s he' ha hd] at hr; simp [fin] at hr
  have hd' : s.holdDown = false := by simpa using hd
  obtain ⟨e1, e2⟩ := tmod_two (s.count + 1) (by omega)
  rcases e2 with hev | hodd
  swap
  · rw [GetNextReport_spacer h mem s he' ha hd' (by omega)] at hr; simp [fin] at hr
  have hcount : s.count + 1 = 2 * (s.count + 1).tdiv 2 := by omega
  by_cases hgt : s.cmdLen < (s.count + 1).tdiv 2
  · rw [GetNextReport_complete h mem s _ he' ha hd' hcount hgt] at hr; simp [fin] at hr
  have hle : (s.count + 1).tdiv 2 ≤ s.cmdLen := by omega
  rw [GetNextReport_press h mem s _ ⟨he', ha, hd', hcount, hle⟩] at hr ⊢
  obtain ⟨_, d2, d3⟩ := dispatch_cursor h mem
    { s with count := 2 * (s.count + 1).tdiv 2, cmdIndex := (s.count + 1).tdiv 2 }
  have hopt : optimizable
      { s with count := 2 * (s.count + 1).tdiv 2, cmdIndex := (s.count + 1).tdiv 2 } = true →
      (s.count + 1).tdiv 2 + 1 < s.cmdLen := by
    intro ho
    simp only [optimizable, Bool.and_eq_true, decide_eq_true_eq] at ho
    exact ho.2
  rcases d3 with r1 | ⟨ho, r1⟩
  · rw [r1] at hr
    have hi : (s.count + 1).tdiv 2 = 32 := by
      have : (32 : Int) = (s.count + 1).tdiv 2 := by simpa using hr
      omega
    rcases d2 with ⟨_, c2⟩ | ⟨ho, _, _⟩
    · rw [r1, c2]
      exact ⟨by show [(s.count + 1).tdiv 2] = [32]; rw [hi],
        by show (s.count + 1).tdiv 2 = 32; exact hi⟩
    · have := hopt ho; omega
  · have := hopt ho
    rw [r1] at hr
    have : (32 : Int) = (s.count + 1).tdiv 2 ∨ (32 : Int) = (s.count + 1).tdiv 2 + 1 := by
      simpa using hr
    omega

end Joystick
